import Mathlib

/-!
Verification development for the item-scanner repository.

The core under verification is the scan route (`extractJson`,
`fetchClaudeAnalysis`, `fetchLensResults`, `POST`) together with the
ephemeral image store (`uploadImage` / `deleteBlob`).  Pure computations
(JSON parsing and extraction, the SerpApi match mapping, the response
assembly) are embedded directly; the external network calls (Anthropic,
blob storage, SerpApi, blob deletion) are modelled as oracle outcomes fed
to the orchestrator, which is faithful because the handler only branches
on their success/failure and returned payloads.

Strings are modelled at the level of their character lists; JavaScript
string indices (UTF-16 code units) coincide with character indices for
all basic-multilingual-plane text, which covers every string the claims
quantify over.
-/

/-- A JavaScript JSON value as produced by `JSON.parse`.  Numbers keep the
raw numeral token (no claim compares numeric values).  Objects keep their
fields in insertion order with duplicate keys already collapsed
(later value wins, first position kept), matching JS object semantics. -/
inductive Json where
  | null : Json
  | bool (b : Bool) : Json
  | num (raw : String) : Json
  | str (s : String) : Json
  | arr (xs : List Json) : Json
  | obj (fields : List (String × Json)) : Json

/-- Is this value JS `null`?  (Destructuring `null` throws.) -/
def isNullJson : Json → Bool
  | Json.null => true
  | _ => false

/-- JS object update semantics: if the key exists its value is replaced in
place, otherwise the pair is appended.  This is both how `JSON.parse`
collapses duplicate keys and how the spread `\x7b ...claudeResult, webResults \x7d`
behaves. -/
def setKey : List (String × Json) → String → Json → List (String × Json)
  | [], k, v => [(k, v)]
  | (k', v') :: rest, k, v =>
    if k' = k then (k', v) :: rest else (k', v') :: setKey rest k v

/-- Collapse a parsed field list into JS object semantics (later duplicate
wins, position of the first occurrence kept). -/
def collapseFields (fs : List (String × Json)) : List (String × Json) :=
  fs.foldl (fun acc kv => setKey acc kv.1 kv.2) []

/-- Field lookup on a collapsed field list (keys are unique there, so the
first match is the JS property value). -/
def getKey : List (String × Json) → String → Option Json
  | [], _ => none
  | (k', v) :: rest, k => if k' = k then some v else getKey rest k

/-- JS property access `v[k]` on a JSON value: `none` models `undefined`
(non-objects have no own properties of interest here). -/
def jsGet (v : Json) (k : String) : Option Json :=
  match v with
  | Json.obj fs => getKey fs k
  | _ => none

/-- JSON source whitespace (the four characters `JSON.parse` skips). -/
def jsonWs (c : Char) : Bool :=
  c = ' ' || c = '\t' || c = '\n' || c = '\r'

/-- Skip leading JSON whitespace. -/
def skipWs : List Char → List Char
  | [] => []
  | c :: cs => if jsonWs c then skipWs cs else c :: cs

/-- Decimal digit test used by the JSON number grammar. -/
def isDig (c : Char) : Bool := '0' ≤ c && c ≤ '9'

/-- Hex digit value for `\uXXXX` escapes (the two letter ranges are
disjoint, so checking uppercase first is equivalent to the source's
lowercase-first order). -/
def hexVal (c : Char) : Option Nat :=
  if isDig c then
    some (c.toNat - '0'.toNat)
  else if 'A' ≤ c && c ≤ 'F' then
    some (10 + (c.toNat - 'A'.toNat))
  else if 'a' ≤ c && c ≤ 'f' then
    some (10 + (c.toNat - 'a'.toNat))
  else
    none

/-- Decoded character of a single-character escape sequence. -/
def escChar (e : Char) : Option Char :=
  match e with
  | '\"' => some '\"'
  | '\\' => some '\\'
  | '/' => some '/'
  | 'b' => some '\x08'
  | 'f' => some '\x0c'
  | 'n' => some '\n'
  | 'r' => some '\r'
  | 't' => some '\t'
  | _ => none

/-- Body of a JSON string literal, assuming the opening quote has been
consumed.  Returns the decoded characters and the remainder after the
closing quote.  Control characters below 0x20 are rejected; the eight
single-character escapes and `\uXXXX` are decoded (`Char.ofNat` stands in
for UTF-16 code-unit semantics, which agree on all claim-relevant text). -/
def parseStringBody : List Char → Option (List Char × List Char)
  | [] => none
  | c :: rest =>
    if c = '\"' then some ([], rest)
    else if c = '\\' then
      match rest with
      | 'u' :: h1 :: h2 :: h3 :: h4 :: rest2 =>
        match hexVal h1, hexVal h2, hexVal h3, hexVal h4 with
        | some a, some b, some c2, some d =>
          (parseStringBody rest2).map
            (fun p => (Char.ofNat (((a * 16 + b) * 16 + c2) * 16 + d) :: p.1, p.2))
        | _, _, _, _ => none
      | e :: rest2 =>
        (escChar e).bind fun d =>
          (parseStringBody rest2).map (fun p => (d :: p.1, p.2))
      | [] => none
    else if c.toNat < 0x20 then none
    else (parseStringBody rest).map (fun p => (c :: p.1, p.2))

/-- Integer part of a JSON number: `0` or a nonzero digit followed by
digits.  (A leading zero followed by more digits ends the token after the
zero; the leftover digit then fails at the continuation exactly as
`JSON.parse` rejects `012`.) -/
def parseIntPart : List Char → Option (List Char × List Char)
  | [] => none
  | c :: r =>
    if c = '0' then some (['0'], r)
    else if isDig c then some (c :: r.takeWhile isDig, r.dropWhile isDig)
    else none

/-- Optional fraction part: consumed only when a dot is followed by at
least one digit, otherwise nothing is consumed (the dangling dot then
fails at the continuation, as in `JSON.parse`). -/
def parseFracPart (cs : List Char) : List Char × List Char :=
  match cs with
  | c :: r =>
    if c = '.' then
      match r.takeWhile isDig with
      | [] => ([], cs)
      | ds => ('.' :: ds, r.dropWhile isDig)
    else ([], cs)
  | [] => ([], cs)

/-- Optional exponent part: consumed only when well formed
(`e`/`E`, optional sign, at least one digit). -/
def parseExpPart (cs : List Char) : List Char × List Char :=
  match cs with
  | e :: r =>
    if e = 'e' || e = 'E' then
      match r with
      | s :: r2 =>
        if s = '+' || s = '-' then
          match r2.takeWhile isDig with
          | [] => ([], cs)
          | ds => (e :: s :: ds, r2.dropWhile isDig)
        else
          match r.takeWhile isDig with
          | [] => ([], cs)
          | ds => (e :: ds, r.dropWhile isDig)
      | [] => ([], cs)
    else ([], cs)
  | [] => ([], cs)

/-- A JSON number token starting at the head of the input
(optional minus, integer part, optional fraction, optional exponent). -/
def parseNumber (cs : List Char) : Option (String × List Char) :=
  let (negs, cs1) :=
    match cs with
    | c :: r => if c = '-' then (['-'], r) else ([], cs)
    | [] => ([], cs)
  match parseIntPart cs1 with
  | none => none
  | some (ip, r1) =>
    let (fp, r2) := parseFracPart r1
    let (ep, r3) := parseExpPart r2
    some (String.mk (negs ++ ip ++ fp ++ ep), r3)

/-- Does a character start a JSON number? -/
def startsNumber (c : Char) : Bool := c = '-' || isDig c

/-- `: value` after a member key: whitespace, a colon, and the position
after it. -/
def expectColon (cs : List Char) : Option (List Char) :=
  match skipWs cs with
  | ':' :: r => some r
  | _ => none

mutual

/-- One JSON value starting at the head of the input (no leading
whitespace).  Mirrors `JSON.parse`'s value grammar; `fuel` only bounds the
nesting recursion (an array level costs 3 fuel per consumed `[`) and is
immaterial once at least `3 * length + 1`, which `parseStable` proves. -/
def parseValue : Nat → List Char → Option (Json × List Char)
  | 0, _ => none
  | fuel + 1, cs =>
    match cs with
    | '\x7b' :: rest =>
      (parseObjBody fuel rest).map (fun p => (Json.obj (collapseFields p.1), p.2))
    | '[' :: rest =>
      (parseArrBody fuel rest).map (fun p => (Json.arr p.1, p.2))
    | '\"' :: rest =>
      (parseStringBody rest).map (fun p => (Json.str (String.mk p.1), p.2))
    | 't' :: 'r' :: 'u' :: 'e' :: rest => some (Json.bool true, rest)
    | 'f' :: 'a' :: 'l' :: 's' :: 'e' :: rest => some (Json.bool false, rest)
    | 'n' :: 'u' :: 'l' :: 'l' :: rest => some (Json.null, rest)
    | c :: _ =>
      if startsNumber c then (parseNumber cs).map (fun p => (Json.num p.1, p.2))
      else none
    | [] => none

/-- Object body after the opening brace: whitespace, then either the
closing brace or the member list. -/
def parseObjBody : Nat → List Char → Option (List (String × Json) × List Char)
  | 0, _ => none
  | fuel + 1, cs =>
    match skipWs cs with
    | '\x7d' :: r => some ([], r)
    | cs1 => parseMembers fuel cs1

/-- Object members, positioned at a key's opening quote: key string,
colon, value, then either a comma and further members or the closing
brace. -/
def parseMembers : Nat → List Char → Option (List (String × Json) × List Char)
  | 0, _ => none
  | fuel + 1, cs =>
    match cs with
    | '\"' :: rest =>
      (parseStringBody rest).bind fun kr =>
        (expectColon kr.2).bind fun r2 =>
          (parseValue fuel (skipWs r2)).bind fun vr =>
            match skipWs vr.2 with
            | ',' :: r4 =>
              (parseMembers fuel (skipWs r4)).map
                (fun p => ((String.mk kr.1, vr.1) :: p.1, p.2))
            | '\x7d' :: r4 => some ([(String.mk kr.1, vr.1)], r4)
            | _ => none
    | _ => none

/-- Array body after the opening bracket. -/
def parseArrBody : Nat → List Char → Option (List Json × List Char)
  | 0, _ => none
  | fuel + 1, cs =>
    match skipWs cs with
    | ']' :: r => some ([], r)
    | cs1 => parseElems fuel cs1

/-- Array elements, positioned at an element's first character: a value,
then either a comma and further elements or the closing bracket. -/
def parseElems : Nat → List Char → Option (List Json × List Char)
  | 0, _ => none
  | fuel + 1, cs =>
    (parseValue fuel cs).bind fun vr =>
      match skipWs vr.2 with
      | ',' :: r2 =>
        (parseElems fuel (skipWs r2)).map (fun p => (vr.1 :: p.1, p.2))
      | ']' :: r2 => some ([vr.1], r2)
      | _ => none

end

/-- `JSON.parse` on a character list: optional surrounding whitespace
around a single value, nothing else.  The fuel `3 * length + 1` is enough
for any input — `parseStable` proves more fuel never changes the
verdict. -/
def parseJsonL (cs : List Char) : Option Json :=
  let cs1 := skipWs cs
  match parseValue (3 * cs1.length + 1) cs1 with
  | some (v, r) => if skipWs r = [] then some v else none
  | none => none

/-- `JSON.parse` on a string (`none` models a thrown `SyntaxError`). -/
def jsonParse (s : String) : Option Json := parseJsonL s.data

/-- JavaScript `\s` / `trim()` whitespace on the ASCII range (the unicode
space class is irrelevant to every claim). -/
def jsWsChar (c : Char) : Bool :=
  c = ' ' || c = '\t' || c = '\n' || c = '\r' || c = '\x0b' || c = '\x0c'

/-- Drop trailing characters satisfying `p`. -/
def dropTrailing (p : Char → Bool) (cs : List Char) : List Char :=
  ((cs.reverse).dropWhile p).reverse

/-- JS `String.prototype.trim`. -/
def trimWs (cs : List Char) : List Char :=
  dropTrailing jsWsChar (cs.dropWhile jsWsChar)

/-- Case-insensitive character comparison (the `/i` regex flag). -/
def ciEq (a b : Char) : Bool := a.toLower = b.toLower

/-- `raw.replace(/^(3 backticks)(?:json)?\s*[/]i, "")`: strip an opening
code-fence marker, an optional case-insensitive `json` tag, and following
whitespace, all anchored at the start. -/
def stripLeadingFence (cs : List Char) : List Char :=
  match cs with
  | '\x60' :: '\x60' :: '\x60' :: rest =>
    let rest2 :=
      match rest with
      | j :: s :: o :: n :: r2 =>
        if ciEq j 'j' && ciEq s 's' && ciEq o 'o' && ciEq n 'n' then r2 else rest
      | _ => rest
    rest2.dropWhile jsWsChar
  | _ => cs

/-- `raw.replace(/\s*(3 backticks)\s*$/i, "")`: when, after trailing
whitespace, the string ends in three backticks, remove them together with
the whitespace on both sides; otherwise leave the string unchanged. -/
def stripTrailingFence (cs : List Char) : List Char :=
  match (cs.reverse).dropWhile jsWsChar with
  | '\x60' :: '\x60' :: '\x60' :: r => (r.dropWhile jsWsChar).reverse
  | _ => cs

/-- Index of the first occurrence of `c` (JS `indexOf`, `none` for -1). -/
def firstIdx (c : Char) : List Char → Option Nat
  | [] => none
  | x :: xs =>
    if x = c then some 0
    else
      match firstIdx c xs with
      | some k => some (k + 1)
      | none => none

/-- Index of the last occurrence of `c` (JS `lastIndexOf`, `none` for -1). -/
def lastIdx (c : Char) : List Char → Option Nat
  | [] => none
  | x :: xs =>
    match lastIdx c xs with
    | some k => some (k + 1)
    | none => if x = c then some 0 else none

/-- JS `raw.slice(i, j + 1)` for `i ≤ j` within bounds. -/
def sliceL (cs : List Char) (i j : Nat) : List Char :=
  (cs.drop i).take (j - i + 1)

/-- Strategy 2 of `extractJson`: the substring from the first brace to the
last closing brace, when `firstBrace !== -1 && lastBrace > firstBrace`. -/
def braceSpan (cs : List Char) : Option (List Char) :=
  match firstIdx '\x7b' cs, lastIdx '\x7d' cs with
  | some i, some j => if i < j then some (sliceL cs i j) else none
  | _, _ => none

/-- Strategy 3 of `extractJson`, the greedy regex `/[brace][\s\S]*[brace]/`:
the leftmost possible match start is the first open brace, and the greedy
star then reaches to the last closing brace of the whole string; a match
exists exactly when such a pair exists in order.  This coincides with the
strategy-2 span, which the embedding keeps as its own definition to mirror
the source's third attempt. -/
def regexOuterBlock (cs : List Char) : Option (List Char) :=
  match firstIdx '\x7b' cs, lastIdx '\x7d' cs with
  | some i, some j => if i < j then some (sliceL cs i j) else none
  | _, _ => none

/-- The ordered candidate list built by `extractJson` (fence-stripped text,
then the brace span, then the regex block). -/
def extractAttempts (raw : List Char) : List (List Char) :=
  [trimWs (stripTrailingFence (stripLeadingFence raw))]
    ++ (match braceSpan raw with
        | some c => [c]
        | none => [])
    ++ (match regexOuterBlock raw with
        | some c => [c]
        | none => [])

/-- The `try JSON.parse / structural check` step of the loop body: a
candidate is accepted only when it parses and the parsed value is a
non-null, non-array object (`obj && typeof obj === "object" &&
!Array.isArray(obj)`); a parse error or a non-object value moves on to the
next candidate. -/
def acceptCandidate (cs : List Char) : Option (List (String × Json)) :=
  match parseJsonL cs with
  | some (Json.obj fs) => some fs
  | _ => none

/-- First candidate accepted by `f`, in order. -/
def firstAccepted (f : List Char → Option (List (String × Json))) :
    List (List Char) → Option (List (String × Json))
  | [] => none
  | c :: rest =>
    match f c with
    | some v => some v
    | none => firstAccepted f rest

/-- `extractJson` on characters: try the three candidates in order and
return the first structurally valid object, else `none` (the source's
`null`). -/
def extractJsonL (raw : List Char) : Option (List (String × Json)) :=
  firstAccepted acceptCandidate (extractAttempts raw)

/-- `extractJson(raw)` from the scan route. -/
def extractJson (raw : String) : Option (List (String × Json)) :=
  extractJsonL raw.data

/-- Outcome of the Anthropic messages call: either the joined text blocks
of a reply, or a thrown error's message. -/
inductive VisionOutcome where
  | ok (rawText : String) : VisionOutcome
  | fail (msg : String) : VisionOutcome

/-- `fetchClaudeAnalysis`, given the outcome of its single external call:
on a reply it runs `extractJson` and throws
`Could not extract JSON from Claude response: <rawText>` when extraction
returns null; a call failure propagates as-is. -/
def fetchClaudeAnalysisCore (outcome : VisionOutcome) :
    Except String (List (String × Json)) :=
  match outcome with
  | VisionOutcome.fail msg => Except.error msg
  | VisionOutcome.ok rawText =>
    match extractJson rawText with
    | some fields => Except.ok fields
    | none =>
      Except.error ("Could not extract JSON from Claude response: " ++ rawText)

/-- The shape built per match by `fetchLensResults` (the `WebResult`
interface).  Fields hold the JS values assigned by the mapping; `price`
and `thumbnail` are `Json.null` when defaulted. -/
structure WebResult where
  title : Json
  price : Json
  link : Json
  source : Json
  thumbnail : Json

/-- JS `??` on a property access: the default is used when the property is
absent (`undefined`) or `null`. -/
def coalesce (v : Option Json) (d : Json) : Json :=
  match v with
  | none => d
  | some Json.null => d
  | some x => x

/-- `m.price?.value`: optional chaining yields `undefined` when `price` is
absent or `null`, and property access on a non-object yields `undefined`. -/
def priceValue (m : Json) : Option Json :=
  match jsGet m "price" with
  | none => none
  | some Json.null => none
  | some p => jsGet p "value"

/-- The per-match mapping of `fetchLensResults`.  JS property access on a
`null` element throws a TypeError (`m.title` with `m` null), so the
mapping of such an element fails; access on any other non-object value
yields `undefined` and the defaults apply. -/
def toWebResult (m : Json) : Option WebResult :=
  match m with
  | Json.null => none
  | _ =>
    some { title := coalesce (jsGet m "title") (Json.str "Unknown")
           price := coalesce (priceValue m) Json.null
           link := coalesce (jsGet m "link") (Json.str "")
           source := coalesce (jsGet m "source") (Json.str "")
           thumbnail := coalesce (jsGet m "thumbnail") Json.null }

/-- The `map` callback runs left to right; a thrown TypeError aborts the
whole mapping (and so all of `fetchLensResults`). -/
def mapWebResults : List Json → Option (List WebResult)
  | [] => some []
  | m :: rest =>
    (toWebResult m).bind fun w =>
      (mapWebResults rest).map fun ws => w :: ws

/-- `matches.slice(0, 5).map(...)` from `fetchLensResults`. -/
def lensMapMatches (ms : List Json) : Option (List WebResult) :=
  mapWebResults (ms.take 5)

/-- `data.visual_matches ?? []` followed by the array use: an absent or
null field becomes the empty list; a present non-array value makes the
subsequent `slice/map` throw, modelled as `none`. -/
def visualMatches (data : Json) : Option (List Json) :=
  match jsGet data "visual_matches" with
  | none => some []
  | some Json.null => some []
  | some (Json.arr xs) => some xs
  | some _ => none

/-- The response-processing tail of `fetchLensResults` on the provider's
parsed JSON body (after the HTTP status check). -/
def fetchLensCore (data : Json) : Option (List WebResult) :=
  match visualMatches data with
  | some xs => lensMapMatches xs
  | none => none

/-- Serialization of a `WebResult` in the response body. -/
def webResultToJson (w : WebResult) : Json :=
  Json.obj [("title", w.title), ("price", w.price), ("link", w.link),
            ("source", w.source), ("thumbnail", w.thumbnail)]

/-- The three `process.env` lookups the handler performs. -/
structure Env where
  anthropicKey : Option String
  serpApiKey : Option String
  blobToken : Option String

/-- JS truthiness of an environment variable (`undefined` and the empty
string are falsy). -/
def envTruthy : Option String → Bool
  | none => false
  | some s => !(s = "")

/-- Outcome of the blob upload (`uploadImage`): the public URL, or a
rejection. -/
inductive UploadOutcome where
  | ok (url : String) : UploadOutcome
  | fail (msg : String) : UploadOutcome

/-- Outcome of the SerpApi fetch: the parsed JSON body of a 2xx reply, a
rejection (network error or the thrown non-ok-status error), or the
15-second `AbortSignal` timeout. -/
inductive SearchOutcome where
  | ok (data : Json) : SearchOutcome
  | fail (msg : String) : SearchOutcome
  | timeout : SearchOutcome

/-- Oracle for the enrichment chain's three external calls.  `deleteOk`
records whether the `deleteBlob` call succeeds. -/
structure EnrichOracle where
  upload : UploadOutcome
  search : SearchOutcome
  deleteOk : Bool

/-- Oracle for one whole scan. -/
structure ScanOracle where
  vision : VisionOutcome
  enrich : EnrichOracle

/-- External calls issued during a scan, in order. -/
inductive Event where
  | visionCall : Event
  | uploadCall : Event
  | searchCall (url : String) : Event
  | deleteCall (url : String) : Event
deriving DecidableEq

/-- The `webResultsPromise` chain: gated on both optional credentials;
`uploadImage` then `fetchLensResults` with `deleteBlob` in a `finally`
(run on search success, failure and timeout alike, its own failure
swallowed by an inner catch); any failure anywhere is caught at the chain
boundary and becomes the empty list.  Returns the resolved match list and
the external calls made. -/
def enrichChain (gate : Bool) (o : EnrichOracle) : List WebResult × List Event :=
  if gate then
    match o.upload with
    | UploadOutcome.fail _ => ([], [Event.uploadCall])
    | UploadOutcome.ok url =>
      match o.search with
      | SearchOutcome.ok data =>
        match fetchLensCore data with
        | some ws => (ws, [Event.uploadCall, Event.searchCall url, Event.deleteCall url])
        | none => ([], [Event.uploadCall, Event.searchCall url, Event.deleteCall url])
      | SearchOutcome.fail _ =>
        ([], [Event.uploadCall, Event.searchCall url, Event.deleteCall url])
      | SearchOutcome.timeout =>
        ([], [Event.uploadCall, Event.searchCall url, Event.deleteCall url])
  else ([], [])

/-- Result of one `POST` invocation: an HTTP JSON response, or an uncaught
exception (destructuring a `null` body) surfaced by the framework. -/
inductive ScanResult where
  | response (status : Nat) (body : Json) : ScanResult
  | thrown : ScanResult

/-- `\x7b error: msg \x7d` response body. -/
def errBody (msg : String) : Json := Json.obj [("error", Json.str msg)]

/-- The `image` precondition `!image || typeof image !== "string"`
negated: present, of string type, and truthy (the empty string is falsy). -/
def imageOk : Option Json → Bool
  | some (Json.str s) => !(s = "")
  | _ => false

/-- The four accepted media types. -/
def validMediaTypes : List String :=
  ["image/jpeg", "image/png", "image/gif", "image/webp"]

/-- `VALID_MEDIA_TYPES.includes(mediaType) ? mediaType : "image/jpeg"`
(`includes` uses strict equality, so only those exact strings pass). -/
def resolveMediaType (mt : Option Json) : String :=
  match mt with
  | some (Json.str s) => if s ∈ validMediaTypes then s else "image/jpeg"
  | _ => "image/jpeg"

/-- JS `String.prototype.startsWith`. -/
def strStarts (s p : String) : Bool := p.data.isPrefixOf s.data

/-- The `POST` handler of the scan route.  `body` is `none` when
`req.json()` rejects.  Returns the response and the ordered list of
external calls made.  The two promises are created before the `await`, so
the enrichment calls happen (and the blob cleanup runs) even when the
vision branch fails; `Promise.all` then surfaces only the vision error,
dispatched on its message prefix. -/
def scanHandler (env : Env) (body : Option Json) (o : ScanOracle) :
    ScanResult × List Event :=
  if !(envTruthy env.anthropicKey) then
    (ScanResult.response 500
      (errBody "ANTHROPIC_API_KEY environment variable is not set."), [])
  else
    match body with
    | none => (ScanResult.response 400 (errBody "Invalid JSON body."), [])
    | some b =>
      if isNullJson b then (ScanResult.thrown, [])
      else if !(imageOk (jsGet b "image")) then
        (ScanResult.response 400
          (errBody "Missing base64 image in request body."), [])
      else
        let gate := envTruthy env.serpApiKey && envTruthy env.blobToken
        let claudeRes := fetchClaudeAnalysisCore o.vision
        let wsEvents := enrichChain gate o.enrich
        let events := Event.visionCall :: wsEvents.2
        match claudeRes with
        | Except.ok fields =>
          (ScanResult.response 200
            (Json.obj (setKey fields "webResults"
              (Json.arr (wsEvents.1.map webResultToJson)))), events)
        | Except.error msg =>
          if strStarts msg "Could not extract JSON" then
            (ScanResult.response 502
              (Json.obj [("error",
                  Json.str "Claude returned an unexpected response format."),
                ("raw", Json.str msg)]), events)
          else
            (ScanResult.response 502
              (errBody ("API request failed: " ++ msg)), events)

theorem parseValue_zero (cs : List Char) : parseValue 0 cs = none := by
  rw [parseValue.eq_def]

theorem parseObjBody_zero (cs : List Char) : parseObjBody 0 cs = none := by
  rw [parseObjBody.eq_def]

theorem parseMembers_zero (cs : List Char) : parseMembers 0 cs = none := by
  rw [parseMembers.eq_def]

theorem parseArrBody_zero (cs : List Char) : parseArrBody 0 cs = none := by
  rw [parseArrBody.eq_def]

theorem parseElems_zero (cs : List Char) : parseElems 0 cs = none := by
  rw [parseElems.eq_def]

theorem parseValue_succ (fuel : Nat) (cs : List Char) :
    parseValue (fuel + 1) cs =
      (match cs with
       | '\x7b' :: rest =>
         (parseObjBody fuel rest).map (fun p => (Json.obj (collapseFields p.1), p.2))
       | '[' :: rest =>
         (parseArrBody fuel rest).map (fun p => (Json.arr p.1, p.2))
       | '\"' :: rest =>
         (parseStringBody rest).map (fun p => (Json.str (String.mk p.1), p.2))
       | 't' :: 'r' :: 'u' :: 'e' :: rest => some (Json.bool true, rest)
       | 'f' :: 'a' :: 'l' :: 's' :: 'e' :: rest => some (Json.bool false, rest)
       | 'n' :: 'u' :: 'l' :: 'l' :: rest => some (Json.null, rest)
       | c :: _ =>
         if startsNumber c then (parseNumber cs).map (fun p => (Json.num p.1, p.2))
         else none
       | [] => none) := by
  rw [parseValue.eq_def]

theorem parseObjBody_succ (fuel : Nat) (cs : List Char) :
    parseObjBody (fuel + 1) cs =
      (match skipWs cs with
       | '\x7d' :: r => some ([], r)
       | cs1 => parseMembers fuel cs1) := by
  rw [parseObjBody.eq_def]

theorem parseMembers_succ (fuel : Nat) (cs : List Char) :
    parseMembers (fuel + 1) cs =
      (match cs with
       | '\"' :: rest =>
         (parseStringBody rest).bind fun kr =>
           (expectColon kr.2).bind fun r2 =>
             (parseValue fuel (skipWs r2)).bind fun vr =>
               match skipWs vr.2 with
               | ',' :: r4 =>
                 (parseMembers fuel (skipWs r4)).map
                   (fun p => ((String.mk kr.1, vr.1) :: p.1, p.2))
               | '\x7d' :: r4 => some ([(String.mk kr.1, vr.1)], r4)
               | _ => none
       | _ => none) := by
  rw [parseMembers.eq_def]

theorem parseArrBody_succ (fuel : Nat) (cs : List Char) :
    parseArrBody (fuel + 1) cs =
      (match skipWs cs with
       | ']' :: r => some ([], r)
       | cs1 => parseElems fuel cs1) := by
  rw [parseArrBody.eq_def]

theorem parseElems_succ (fuel : Nat) (cs : List Char) :
    parseElems (fuel + 1) cs =
      ((parseValue fuel cs).bind fun vr =>
        match skipWs vr.2 with
        | ',' :: r2 =>
          (parseElems fuel (skipWs r2)).map (fun p => (vr.1 :: p.1, p.2))
        | ']' :: r2 => some ([vr.1], r2)
        | _ => none) := by
  rw [parseElems.eq_def]

theorem parseObjBody_succ_cases (fuel : Nat) (cs : List Char)
    (x : List (String × Json) × List Char) :
    parseObjBody (fuel + 1) cs = some x ↔
      ((∃ r, skipWs cs = '\x7d' :: r ∧ x = ([], r)) ∨
       ((∀ r, skipWs cs ≠ '\x7d' :: r) ∧ parseMembers fuel (skipWs cs) = some x)) := by
  rw [parseObjBody_succ]
  constructor
  · intro h
    split at h
    · rename_i r heq
      exact Or.inl ⟨r, heq, by injection h with h2; exact h2.symm⟩
    · rename_i hne
      refine Or.inr ⟨?_, h⟩
      intro r hr
      exact hne r hr
  · intro h
    rcases h with ⟨r, heq, hx⟩ | ⟨hne, h⟩
    · rw [heq, hx]
      rfl
    · split
      · rename_i r heq
        exact absurd heq (hne r)
      · exact h

theorem parseArrBody_succ_cases (fuel : Nat) (cs : List Char)
    (x : List Json × List Char) :
    parseArrBody (fuel + 1) cs = some x ↔
      ((∃ r, skipWs cs = ']' :: r ∧ x = ([], r)) ∨
       ((∀ r, skipWs cs ≠ ']' :: r) ∧ parseElems fuel (skipWs cs) = some x)) := by
  rw [parseArrBody_succ]
  constructor
  · intro h
    split at h
    · rename_i r heq
      exact Or.inl ⟨r, heq, by injection h with h2; exact h2.symm⟩
    · rename_i hne
      refine Or.inr ⟨?_, h⟩
      intro r hr
      exact hne r hr
  · intro h
    rcases h with ⟨r, heq, hx⟩ | ⟨hne, h⟩
    · rw [heq, hx]
      rfl
    · split
      · rename_i r heq
        exact absurd heq (hne r)
      · exact h

theorem memberTail_cases (fuel : Nat) (key : String) (v : Json) (r3 : List Char)
    (x : List (String × Json) × List Char) :
    (match skipWs r3 with
     | ',' :: r4 =>
       (parseMembers fuel (skipWs r4)).map (fun p => ((key, v) :: p.1, p.2))
     | '\x7d' :: r4 => some ([(key, v)], r4)
     | _ => none) = some x ↔
      ((∃ r4, skipWs r3 = ',' :: r4 ∧
          (parseMembers fuel (skipWs r4)).map
            (fun p => ((key, v) :: p.1, p.2)) = some x) ∨
       (∃ r4, skipWs r3 = '\x7d' :: r4 ∧ x = ([(key, v)], r4))) := by
  constructor
  · intro h
    split at h
    · rename_i r4 heq
      exact Or.inl ⟨r4, heq, h⟩
    · rename_i r4 heq
      exact Or.inr ⟨r4, heq, by injection h with h2; exact h2.symm⟩
    · exact Option.noConfusion h
  · intro h
    rcases h with ⟨r4, heq, h⟩ | ⟨r4, heq, hx⟩
    · rw [heq]
      exact h
    · rw [heq, hx]
      rfl

theorem elemTail_cases (fuel : Nat) (v : Json) (r1 : List Char)
    (x : List Json × List Char) :
    (match skipWs r1 with
     | ',' :: r2 =>
       (parseElems fuel (skipWs r2)).map (fun p => (v :: p.1, p.2))
     | ']' :: r2 => some ([v], r2)
     | _ => none) = some x ↔
      ((∃ r2, skipWs r1 = ',' :: r2 ∧
          (parseElems fuel (skipWs r2)).map (fun p => (v :: p.1, p.2)) = some x) ∨
       (∃ r2, skipWs r1 = ']' :: r2 ∧ x = ([v], r2))) := by
  constructor
  · intro h
    split at h
    · rename_i r2 heq
      exact Or.inl ⟨r2, heq, h⟩
    · rename_i r2 heq
      exact Or.inr ⟨r2, heq, by injection h with h2; exact h2.symm⟩
    · exact Option.noConfusion h
  · intro h
    rcases h with ⟨r2, heq, h⟩ | ⟨r2, heq, hx⟩
    · rw [heq]
      exact h
    · rw [heq, hx]
      rfl

theorem parseMonoStep (fuel : Nat) :
    (∀ cs x, parseValue fuel cs = some x → parseValue (fuel + 1) cs = some x) ∧
    (∀ cs x, parseObjBody fuel cs = some x → parseObjBody (fuel + 1) cs = some x) ∧
    (∀ cs x, parseMembers fuel cs = some x → parseMembers (fuel + 1) cs = some x) ∧
    (∀ cs x, parseArrBody fuel cs = some x → parseArrBody (fuel + 1) cs = some x) ∧
    (∀ cs x, parseElems fuel cs = some x → parseElems (fuel + 1) cs = some x) := by
  induction fuel with
  | zero =>
    refine ⟨?_, ?_, ?_, ?_, ?_⟩ <;> intro cs x h <;>
      simp [parseValue_zero, parseObjBody_zero, parseMembers_zero,
        parseArrBody_zero, parseElems_zero] at h
  | succ n ih =>
    obtain ⟨ihv, iho, ihm, iha, ihe⟩ := ih
    refine ⟨?_, ?_, ?_, ?_, ?_⟩ <;> intro cs x h
    · rw [parseValue_succ] at h
      rw [parseValue_succ]
      split at h
      · obtain ⟨p, hp, hx⟩ := Option.map_eq_some'.mp h
        exact Option.map_eq_some'.mpr ⟨p, iho _ _ hp, hx⟩
      · obtain ⟨p, hp, hx⟩ := Option.map_eq_some'.mp h
        exact Option.map_eq_some'.mpr ⟨p, iha _ _ hp, hx⟩
      · exact h
      · exact h
      · exact h
      · exact h
      · split at h
        · rename_i hc
          rw [if_pos hc]
          exact h
        · exact Option.noConfusion h
      · exact Option.noConfusion h
    · rcases (parseObjBody_succ_cases n cs x).mp h with ⟨r, heq, hx⟩ | ⟨hne, hm⟩
      · exact (parseObjBody_succ_cases (n + 1) cs x).mpr (Or.inl ⟨r, heq, hx⟩)
      · exact (parseObjBody_succ_cases (n + 1) cs x).mpr (Or.inr ⟨hne, ihm _ _ hm⟩)
    · rw [parseMembers_succ] at h
      rw [parseMembers_succ]
      split at h
      · obtain ⟨kr, hkr, h⟩ := Option.bind_eq_some.mp h
        obtain ⟨r2, hr2, h⟩ := Option.bind_eq_some.mp h
        obtain ⟨vr, hvr, h⟩ := Option.bind_eq_some.mp h
        refine Option.bind_eq_some.mpr ⟨kr, hkr, ?_⟩
        refine Option.bind_eq_some.mpr ⟨r2, hr2, ?_⟩
        refine Option.bind_eq_some.mpr ⟨vr, ihv _ _ hvr, ?_⟩
        rcases (memberTail_cases n _ _ _ x).mp h with ⟨r4, heq, hmap⟩ | ⟨r4, heq, hx⟩
        · obtain ⟨p, hp, hx⟩ := Option.map_eq_some'.mp hmap
          exact (memberTail_cases (n + 1) _ _ _ x).mpr
            (Or.inl ⟨r4, heq, Option.map_eq_some'.mpr ⟨p, ihm _ _ hp, hx⟩⟩)
        · exact (memberTail_cases (n + 1) _ _ _ x).mpr (Or.inr ⟨r4, heq, hx⟩)
      · exact Option.noConfusion h
    · rcases (parseArrBody_succ_cases n cs x).mp h with ⟨r, heq, hx⟩ | ⟨hne, hm⟩
      · exact (parseArrBody_succ_cases (n + 1) cs x).mpr (Or.inl ⟨r, heq, hx⟩)
      · exact (parseArrBody_succ_cases (n + 1) cs x).mpr (Or.inr ⟨hne, ihe _ _ hm⟩)
    · rw [parseElems_succ] at h
      rw [parseElems_succ]
      obtain ⟨vr, hvr, h⟩ := Option.bind_eq_some.mp h
      refine Option.bind_eq_some.mpr ⟨vr, ihv _ _ hvr, ?_⟩
      rcases (elemTail_cases n _ _ x).mp h with ⟨r2, heq, hmap⟩ | ⟨r2, heq, hx⟩
      · obtain ⟨p, hp, hx⟩ := Option.map_eq_some'.mp hmap
        exact (elemTail_cases (n + 1) _ _ x).mpr
          (Or.inl ⟨r2, heq, Option.map_eq_some'.mpr ⟨p, ihe _ _ hp, hx⟩⟩)
      · exact (elemTail_cases (n + 1) _ _ x).mpr (Or.inr ⟨r2, heq, hx⟩)

theorem parseValue_mono {fuel fuel' : Nat} (hle : fuel ≤ fuel') {cs : List Char}
    {x : Json × List Char} (h : parseValue fuel cs = some x) :
    parseValue fuel' cs = some x := by
  induction fuel' with
  | zero =>
    have : fuel = 0 := Nat.le_zero.mp hle
    subst this
    exact h
  | succ n ih =>
    rcases Nat.lt_or_ge fuel (n + 1) with hlt | hge
    · exact (parseMonoStep n).1 _ _ (ih (Nat.lt_succ_iff.mp hlt))
    · have : fuel = n + 1 := Nat.le_antisymm hle hge
      subst this
      exact h

theorem parseObjBody_mono {fuel fuel' : Nat} (hle : fuel ≤ fuel') {cs : List Char}
    {x : List (String × Json) × List Char} (h : parseObjBody fuel cs = some x) :
    parseObjBody fuel' cs = some x := by
  induction fuel' with
  | zero =>
    have : fuel = 0 := Nat.le_zero.mp hle
    subst this
    exact h
  | succ n ih =>
    rcases Nat.lt_or_ge fuel (n + 1) with hlt | hge
    · exact (parseMonoStep n).2.1 _ _ (ih (Nat.lt_succ_iff.mp hlt))
    · have : fuel = n + 1 := Nat.le_antisymm hle hge
      subst this
      exact h

theorem skipWs_decomp (cs : List Char) :
    ∃ w, cs = w ++ skipWs cs ∧ ∀ c ∈ w, jsonWs c = true := by
  induction cs with
  | nil => exact ⟨[], rfl, by simp⟩
  | cons c cs ih =>
    by_cases hc : jsonWs c = true
    · obtain ⟨w, hw, hall⟩ := ih
      refine ⟨c :: w, ?_, ?_⟩
      · simpa [skipWs, hc] using congrArg (c :: ·) hw
      · intro d hd
        rcases List.mem_cons.mp hd with rfl | hd
        · exact hc
        · exact hall d hd
    · refine ⟨[], ?_, by simp⟩
      simp [skipWs, hc]

theorem skipWs_append_ne_nil (cs b : List Char) (h : skipWs cs ≠ []) :
    skipWs (cs ++ b) = skipWs cs ++ b := by
  induction cs with
  | nil => exact absurd rfl h
  | cons c cs ih =>
    by_cases hc : jsonWs c = true
    · have h2 : skipWs cs ≠ [] := by
        intro hnil
        exact h (by simpa [skipWs, hc] using hnil)
      simpa [skipWs, hc] using ih h2
    · simp [skipWs, hc]

theorem skipWs_head_not_ws (cs : List Char) (c : Char) (r : List Char)
    (h : skipWs cs = c :: r) : jsonWs c = false := by
  induction cs with
  | nil => exact absurd h (by simp [skipWs])
  | cons d cs ih =>
    by_cases hd : jsonWs d = true
    · exact ih (by simpa [skipWs, hd] using h)
    · rw [skipWs] at h
      rw [if_neg (by simp [hd])] at h
      injection h with h1 _
      rw [← h1]
      simpa using hd

theorem skipWs_of_head_not_ws (c : Char) (cs : List Char) (h : jsonWs c = false) :
    skipWs (c :: cs) = c :: cs := by
  simp [skipWs, h]

theorem skipWs_all_ws (cs : List Char) (h : skipWs cs = []) :
    ∀ c ∈ cs, jsonWs c = true := by
  intro c hc
  induction cs with
  | nil => exact absurd hc (by simp)
  | cons d cs ih =>
    by_cases hd : jsonWs d = true
    · rcases List.mem_cons.mp hc with rfl | hc2
      · exact hd
      · exact ih (by simpa [skipWs, hd] using h) hc2
    · exact absurd h (by simp [skipWs, hd])

theorem parseValue_nil (fuel : Nat) : parseValue fuel [] = none := by
  cases fuel with
  | zero => exact parseValue_zero []
  | succ n => rw [parseValue_succ]

theorem parseMembers_nil (fuel : Nat) : parseMembers fuel [] = none := by
  cases fuel with
  | zero => exact parseMembers_zero []
  | succ n => rw [parseMembers_succ]

theorem parseElems_nil (fuel : Nat) : parseElems fuel [] = none := by
  cases fuel with
  | zero => exact parseElems_zero []
  | succ n => rw [parseElems_succ, parseValue_nil]; rfl

theorem dropWhile_append_ne_nil (p : Char → Bool) (l l2 : List Char)
    (h : l.dropWhile p ≠ []) :
    (l ++ l2).takeWhile p = l.takeWhile p ∧
      (l ++ l2).dropWhile p = l.dropWhile p ++ l2 := by
  induction l with
  | nil => exact absurd rfl h
  | cons c l ih =>
    by_cases hc : p c = true
    · have h2 : l.dropWhile p ≠ [] := by
        intro hnil
        exact h (by simpa [List.dropWhile_cons, hc] using hnil)
      obtain ⟨ht, hd⟩ := ih h2
      constructor
      · simp [List.takeWhile_cons, hc, ht]
      · simpa [List.dropWhile_cons, hc] using hd
    · constructor
      · simp [List.takeWhile_cons, hc]
      · simp [List.dropWhile_cons, hc]

theorem dropWhile_nil_all (p : Char → Bool) (l : List Char)
    (h : l.dropWhile p = []) : l.takeWhile p = l := by
  induction l with
  | nil => rfl
  | cons c l ih =>
    by_cases hc : p c = true
    · simp only [List.takeWhile_cons, hc, if_true]
      exact congrArg (c :: ·) (ih (by simpa [List.dropWhile_cons, hc] using h))
    · exact absurd h (by simp [List.dropWhile_cons, hc])

theorem parseStringBody_split (cs : List Char) :
    ∀ s r, parseStringBody cs = some (s, r) → ∃ c, cs = c ++ r := by
  induction cs using parseStringBody.induct <;> intro s r h <;>
    rw [parseStringBody.eq_def] at h <;> simp_all
  case case2 => exact ⟨['\"'], rfl⟩
  case case3 h1 h2 h3 h4 rest2 a b c2 d ha hb hc hd ih =>
    obtain ⟨s0, hsub, -⟩ := h
    obtain ⟨c0, rfl⟩ := ih _ _ hsub
    exact ⟨'\\' :: 'u' :: h1 :: h2 :: h3 :: h4 :: c0, by simp⟩
  case case5 e rest2 hne ih =>
    obtain ⟨d, hd, h2⟩ := Option.bind_eq_some.mp h
    obtain ⟨⟨p1, p2⟩, hp, hps⟩ := Option.map_eq_some'.mp h2
    obtain ⟨c0, hc0⟩ := ih _ _ hp
    have hr : p2 = r := congrArg Prod.snd hps
    exact ⟨'\\' :: e :: c0, by simp [hc0, ← hr]⟩
  case case8 c cs2 hq hb hctl ih =>
    obtain ⟨a, hsub, -⟩ := h
    obtain ⟨c0, rfl⟩ := ih _ _ hsub
    exact ⟨c :: c0, by simp⟩

theorem parseStringBody_append (cs b : List Char) :
    ∀ s r, parseStringBody cs = some (s, r) →
      parseStringBody (cs ++ b) = some (s, r ++ b) := by
  induction cs using parseStringBody.induct <;> intro s r h <;>
    rw [parseStringBody.eq_def] at h <;> simp_all
  case case2 =>
    rw [parseStringBody.eq_def]
    simp
  case case3 h1 h2 h3 h4 rest2 a b2 c2 d ha hb hc hd ih =>
    obtain ⟨s0, hsub, hs⟩ := h
    rw [parseStringBody.eq_def]
    simp [ha, hb, hc, hd, ih _ _ hsub, hs]
  case case5 e rest2 hne ih =>
    obtain ⟨d, hd, h2⟩ := Option.bind_eq_some.mp h
    obtain ⟨⟨p1, p2⟩, hp, hps⟩ := Option.map_eq_some'.mp h2
    rw [parseStringBody.eq_def]
    simp only [List.cons_append, if_true]
    split
    · rename_i heq
      exact absurd heq (by decide)
    · split
      · rename_i heq
        injection heq with he _
        subst he
        exact absurd hd (by simp [escChar])
      · rename_i heq
        injection heq with he hrest
        subst he
        rw [← hrest]
        rw [Option.bind_eq_some]
        refine ⟨d, hd, ?_⟩
        rw [ih _ _ hp]
        simp only [Option.map_some']
        injection hps with hps1 hps2
        simp [hps1, hps2]
        exact hps2
      · rename_i heq
        exact absurd heq (by simp)
  case case8 c cs2 hq hbs hctl ih =>
    obtain ⟨a, hsub, ha⟩ := h
    rw [parseStringBody.eq_def]
    simp [hq, hbs, ih _ _ hsub, ha, Nat.not_lt.mpr hctl]

/-- A character after which appending more text cannot extend any pending
token: JSON whitespace or a closing delimiter.  After a value inside an
object or array, the remainder always starts with such a character. -/
def safeChar (c : Char) : Bool :=
  jsonWs c || c = ',' || c = '\x7d' || c = ']'

/-- The remainder starts with a token-boundary character. -/
def headSafe : List Char → Prop
  | [] => False
  | c :: _ => safeChar c = true

theorem expectColon_split (cs r : List Char) (h : expectColon cs = some r) :
    ∃ c, cs = c ++ r := by
  unfold expectColon at h
  split at h
  · rename_i r2 heq
    injection h with h1
    subst h1
    obtain ⟨w, hw, -⟩ := skipWs_decomp cs
    exact ⟨w ++ [':'], by rw [hw, heq]; simp⟩
  · exact Option.noConfusion h

theorem expectColon_append (cs b r : List Char) (h : expectColon cs = some r) :
    expectColon (cs ++ b) = some (r ++ b) := by
  unfold expectColon at h ⊢
  split at h
  · rename_i r2 heq
    injection h with h1
    subst h1
    rw [skipWs_append_ne_nil cs b (by rw [heq]; simp), heq]
    simp
  · exact Option.noConfusion h

theorem parseIntPart_split (cs ip r : List Char)
    (h : parseIntPart cs = some (ip, r)) : ∃ c, cs = c ++ r := by
  match cs with
  | [] => exact absurd h (by simp [parseIntPart])
  | c :: rest =>
    simp only [parseIntPart] at h
    by_cases h0 : c = '0'
    · rw [if_pos h0] at h
      injection h with h1
      injection h1 with h2 h3
      exact ⟨[c], by rw [h3]; simp⟩
    · rw [if_neg h0] at h
      by_cases hd : isDig c = true
      · rw [if_pos hd] at h
        injection h with h1
        injection h1 with h2 h3
        refine ⟨c :: rest.takeWhile isDig, ?_⟩
        rw [← h3]
        simp [List.takeWhile_append_dropWhile]
      · rw [if_neg (by simp [hd])] at h
        exact Option.noConfusion h

theorem parseFracPart_split (cs fp r : List Char)
    (h : parseFracPart cs = (fp, r)) : ∃ c, cs = c ++ r := by
  match cs with
  | [] =>
    injection h with h1 h2
    exact ⟨[], by rw [← h2]; simp⟩
  | c :: rest =>
    simp only [parseFracPart] at h
    by_cases hc : c = '.'
    · rw [if_pos hc] at h
      rcases ht : rest.takeWhile isDig with _ | ⟨d, ds⟩
      · rw [ht] at h
        injection h with h1 h2
        exact ⟨[], by rw [← h2]; simp⟩
      · rw [ht] at h
        injection h with h1 h2
        refine ⟨c :: rest.takeWhile isDig, ?_⟩
        rw [← h2]
        simp [List.takeWhile_append_dropWhile]
    · rw [if_neg hc] at h
      injection h with h1 h2
      exact ⟨[], by rw [← h2]; simp⟩

theorem parseExpPart_split (cs ep r : List Char)
    (h : parseExpPart cs = (ep, r)) : ∃ c, cs = c ++ r := by
  match cs with
  | [] =>
    injection h with h1 h2
    exact ⟨[], by rw [← h2]; simp⟩
  | e :: rest =>
    simp only [parseExpPart] at h
    by_cases he : (e = 'e' || e = 'E') = true
    · rw [if_pos he] at h
      rcases rest with _ | ⟨s, r2⟩
      · injection h with h1 h2
        exact ⟨[], by rw [← h2]; simp⟩
      · dsimp only at h
        by_cases hs : (s = '+' || s = '-') = true
        · rw [if_pos hs] at h
          rcases ht : r2.takeWhile isDig with _ | ⟨d, ds⟩
          · rw [ht] at h
            injection h with h1 h2
            exact ⟨[], by rw [← h2]; simp⟩
          · rw [ht] at h
            injection h with h1 h2
            refine ⟨e :: s :: r2.takeWhile isDig, ?_⟩
            rw [← h2]
            simp [List.takeWhile_append_dropWhile]
        · rw [if_neg hs] at h
          rcases ht : (s :: r2).takeWhile isDig with _ | ⟨d, ds⟩
          · rw [ht] at h
            injection h with h1 h2
            exact ⟨[], by rw [← h2]; simp⟩
          · rw [ht] at h
            injection h with h1 h2
            refine ⟨e :: (s :: r2).takeWhile isDig, ?_⟩
            rw [← h2]
            simp [List.takeWhile_append_dropWhile]
    · rw [if_neg he] at h
      injection h with h1 h2
      exact ⟨[], by rw [← h2]; simp⟩

theorem parseNumber_split (cs : List Char) (tok : String) (r : List Char)
    (h : parseNumber cs = some (tok, r)) : ∃ c, cs = c ++ r := by
  unfold parseNumber at h
  rcases h2 : (match cs with
      | c :: r => if c = '-' then (['-'], r) else ([], cs)
      | [] => ([], cs)) with ⟨negs, cs1⟩
  rw [h2] at h
  dsimp only at h
  have hcs1 : ∃ p, cs = p ++ cs1 := by
    match cs with
    | [] =>
      injection h2 with _ hx
      exact ⟨[], by rw [← hx]; simp⟩
    | c :: rest =>
      dsimp only at h2
      by_cases hm : c = '-'
      · rw [if_pos hm] at h2
        injection h2 with _ hx
        exact ⟨[c], by rw [← hx]; simp⟩
      · rw [if_neg hm] at h2
        injection h2 with _ hx
        exact ⟨[], by rw [← hx]; simp⟩
  rcases hip : parseIntPart cs1 with _ | ⟨ip, r1⟩
  · rw [hip] at h
    exact Option.noConfusion h
  · rw [hip] at h
    dsimp only at h
    rcases hfp : parseFracPart r1 with ⟨fp, r2⟩
    rcases hep : parseExpPart r2 with ⟨ep, r3⟩
    simp only [hfp, hep] at h
    injection h with h1
    injection h1 with _ h3
    obtain ⟨p0, hp0⟩ := hcs1
    obtain ⟨p1, hp1⟩ := parseIntPart_split cs1 ip r1 hip
    obtain ⟨p2, hp2⟩ := parseFracPart_split r1 fp r2 hfp
    obtain ⟨p3, hp3⟩ := parseExpPart_split r2 ep r3 hep
    subst h3
    exact ⟨p0 ++ p1 ++ p2 ++ p3, by rw [hp0, hp1, hp2, hp3]; simp⟩

theorem parseFracPart_nil : parseFracPart [] = ([], []) := rfl

theorem parseExpPart_nil : parseExpPart [] = ([], []) := rfl

theorem parseIntPart_append (cs b ip r1 : List Char)
    (h : parseIntPart cs = some (ip, r1)) (hne : r1 ≠ []) :
    parseIntPart (cs ++ b) = some (ip, r1 ++ b) := by
  match cs with
  | [] => exact absurd h (by simp [parseIntPart])
  | c :: rest =>
    simp only [parseIntPart] at h
    rw [List.cons_append]
    simp only [parseIntPart]
    by_cases h0 : c = '0'
    · rw [if_pos h0] at h ⊢
      injection h with h1
      injection h1 with h2 h3
      rw [← h2, ← h3]
    · rw [if_neg h0] at h ⊢
      by_cases hd : isDig c = true
      · rw [if_pos hd] at h ⊢
        injection h with h1
        injection h1 with h2 h3
        have hdw : rest.dropWhile isDig ≠ [] := by rw [h3]; exact hne
        obtain ⟨ht, hd2⟩ := dropWhile_append_ne_nil isDig rest b hdw
        rw [ht, hd2, ← h2, ← h3]
      · rw [if_neg hd] at h
        exact Option.noConfusion h

theorem parseFracPart_append (r1 b fp r2 : List Char)
    (h : parseFracPart r1 = (fp, r2)) (hne : r2 ≠ []) (hdot : r1 ≠ ['.']) :
    parseFracPart (r1 ++ b) = (fp, r2 ++ b) := by
  match r1 with
  | [] =>
    rw [parseFracPart_nil] at h
    injection h with h1 h2
    exact absurd h2.symm hne
  | c :: rest =>
    simp only [parseFracPart] at h
    rw [List.cons_append]
    simp only [parseFracPart]
    by_cases hc : c = '.'
    · rw [if_pos hc] at h ⊢
      match rest with
      | [] =>
        subst hc
        exact absurd rfl hdot
      | d :: rest2 =>
        rcases ht : (d :: rest2).takeWhile isDig with _ | ⟨d2, ds⟩
        · rw [ht] at h
          injection h with h1 h2
          have hd : isDig d = false := by
            by_cases hdd : isDig d = true
            · rw [List.takeWhile_cons, hdd] at ht
              simp at ht
            · simpa using hdd
          rw [List.cons_append, List.takeWhile_cons, hd]
          simp only [Bool.false_eq_true, if_false]
          rw [← h1, ← h2]
          simp
        · rw [ht] at h
          injection h with h1 h2
          have hdw : (d :: rest2).dropWhile isDig ≠ [] := by rw [h2]; exact hne
          obtain ⟨ht2, hd2⟩ := dropWhile_append_ne_nil isDig (d :: rest2) b hdw
          rw [ht2, ht, hd2, ← h1, ← h2]
    · rw [if_neg hc] at h ⊢
      injection h with h1 h2
      rw [← h1, ← h2]
      simp

theorem parseExpPart_append (r2 b ep r3 : List Char)
    (h : parseExpPart r2 = (ep, r3)) (hsafe : headSafe r3) :
    parseExpPart (r2 ++ b) = (ep, r3 ++ b) := by
  match r2 with
  | [] =>
    rw [parseExpPart_nil] at h
    injection h with h1 h2
    rw [← h2] at hsafe
    exact absurd hsafe (by simp [headSafe])
  | e :: rest =>
    simp only [parseExpPart] at h
    rw [List.cons_append]
    simp only [parseExpPart]
    by_cases he : (e = 'e' || e = 'E') = true
    · rw [if_pos he] at h ⊢
      have hesafe : safeChar e = false := by
        rcases Bool.or_eq_true_iff.mp he with he1 | he1
        · rw [of_decide_eq_true he1]; decide
        · rw [of_decide_eq_true he1]; decide
      match rest with
      | [] =>
        injection h with h1 h2
        rw [← h2] at hsafe
        simp [headSafe, hesafe] at hsafe
      | s :: rest2 =>
        dsimp only [List.cons_append] at h ⊢
        by_cases hs : (s = '+' || s = '-') = true
        · rw [if_pos hs] at h ⊢
          rcases ht : rest2.takeWhile isDig with _ | ⟨d, ds⟩
          · rw [ht] at h
            injection h with h1 h2
            rw [← h2] at hsafe
            simp [headSafe, hesafe] at hsafe
          · rw [ht] at h
            injection h with h1 h2
            have hne3 : r3 ≠ [] := by
              intro hnil
              rw [hnil] at hsafe
              exact hsafe
            have hdw : rest2.dropWhile isDig ≠ [] := by rw [h2]; exact hne3
            obtain ⟨ht2, hd2⟩ := dropWhile_append_ne_nil isDig rest2 b hdw
            rw [ht2, ht, hd2, ← h1, ← h2]
        · rw [if_neg hs] at h ⊢
          rcases ht : (s :: rest2).takeWhile isDig with _ | ⟨d, ds⟩
          · rw [ht] at h
            injection h with h1 h2
            rw [← h2] at hsafe
            simp [headSafe, hesafe] at hsafe
          · rw [ht] at h
            injection h with h1 h2
            have hne3 : r3 ≠ [] := by
              intro hnil
              rw [hnil] at hsafe
              exact hsafe
            have hdw : (s :: rest2).dropWhile isDig ≠ [] := by rw [h2]; exact hne3
            obtain ⟨ht2, hd2⟩ := dropWhile_append_ne_nil isDig (s :: rest2) b hdw
            simp only [List.cons_append] at ht2 hd2
            rw [ht2, ht, hd2, ← h1, ← h2]
    · rw [if_neg he] at h ⊢
      injection h with h1 h2
      rw [← h1, ← h2]
      simp

theorem parseNumber_append (cs b : List Char) (tok : String) (r3 : List Char)
    (h : parseNumber cs = some (tok, r3)) (hsafe : headSafe r3) :
    parseNumber (cs ++ b) = some (tok, r3 ++ b) := by
  have hne3 : r3 ≠ [] := by
    intro hnil
    rw [hnil] at hsafe
    exact hsafe
  unfold parseNumber at h ⊢
  match cs with
  | [] =>
    dsimp only at h
    rw [show parseIntPart [] = none from rfl] at h
    exact Option.noConfusion h
  | c :: rest =>
    dsimp only [List.cons_append] at h ⊢
    by_cases hm : c = '-'
    · rw [if_pos hm] at h ⊢
      rcases hip : parseIntPart rest with _ | ⟨ip, r1⟩
      · rw [hip] at h
        exact Option.noConfusion h
      · rw [hip] at h
        dsimp only at h
        rcases hfp : parseFracPart r1 with ⟨fp, r2⟩
        rcases hep : parseExpPart r2 with ⟨ep, r3x⟩
        simp only [hfp, hep] at h
        injection h with h1
        injection h1 with htok hr3
        subst hr3
        have hne2 : r2 ≠ [] := by
          intro hnil
          rw [hnil, parseExpPart_nil] at hep
          injection hep with _ hx
          exact hne3 hx.symm
        have hne1 : r1 ≠ [] := by
          intro hnil
          rw [hnil, parseFracPart_nil] at hfp
          injection hfp with _ hx
          exact hne2 hx.symm
        have hdot : r1 ≠ ['.'] := by
          intro hd
          rw [hd] at hfp
          rw [show parseFracPart ['.'] = ([], ['.']) from rfl] at hfp
          injection hfp with hx1 hx2
          rw [← hx2] at hep
          rw [show parseExpPart ['.'] = ([], ['.']) from rfl] at hep
          injection hep with _ hx3
          rw [← hx3] at hsafe
          exact absurd hsafe (by simp [headSafe, safeChar, jsonWs])
        rw [parseIntPart_append rest b ip r1 hip hne1]
        dsimp only
        rw [parseFracPart_append r1 b fp r2 hfp hne2 hdot]
        dsimp only
        rw [parseExpPart_append r2 b ep r3x hep hsafe]
        simp [← htok]
    · rw [if_neg hm] at h ⊢
      rcases hip : parseIntPart (c :: rest) with _ | ⟨ip, r1⟩
      · rw [hip] at h
        exact Option.noConfusion h
      · rw [hip] at h
        dsimp only at h
        rcases hfp : parseFracPart r1 with ⟨fp, r2⟩
        rcases hep : parseExpPart r2 with ⟨ep, r3x⟩
        simp only [hfp, hep] at h
        injection h with h1
        injection h1 with htok hr3
        subst hr3
        have hne2 : r2 ≠ [] := by
          intro hnil
          rw [hnil, parseExpPart_nil] at hep
          injection hep with _ hx
          exact hne3 hx.symm
        have hne1 : r1 ≠ [] := by
          intro hnil
          rw [hnil, parseFracPart_nil] at hfp
          injection hfp with _ hx
          exact hne2 hx.symm
        have hdot : r1 ≠ ['.'] := by
          intro hd
          rw [hd] at hfp
          rw [show parseFracPart ['.'] = ([], ['.']) from rfl] at hfp
          injection hfp with hx1 hx2
          rw [← hx2] at hep
          rw [show parseExpPart ['.'] = ([], ['.']) from rfl] at hep
          injection hep with _ hx3
          rw [← hx3] at hsafe
          exact absurd hsafe (by simp [headSafe, safeChar, jsonWs])
        have := parseIntPart_append (c :: rest) b ip r1 hip hne1
        rw [List.cons_append] at this
        rw [this]
        dsimp only
        rw [parseFracPart_append r1 b fp r2 hfp hne2 hdot]
        dsimp only
        rw [parseExpPart_append r2 b ep r3x hep hsafe]
        simp [← htok]

theorem headSafe_of_skipWs (cs : List Char) (d : Char) (r : List Char)
    (h : skipWs cs = d :: r) (hd : safeChar d = true) : headSafe cs := by
  match cs with
  | [] => exact absurd h (by simp [skipWs])
  | c :: rest =>
    by_cases hc : jsonWs c = true
    · show safeChar c = true
      simp [safeChar, hc]
    · rw [skipWs_of_head_not_ws c rest (by simpa using hc)] at h
      injection h with h1 _
      show safeChar c = true
      rw [h1]
      exact hd

theorem parseSplitAll (fuel : Nat) :
    (∀ cs v r, parseValue fuel cs = some (v, r) → ∃ c, cs = c ++ r) ∧
    (∀ cs fs r, parseObjBody fuel cs = some (fs, r) → ∃ c, cs = c ++ r) ∧
    (∀ cs fs r, parseMembers fuel cs = some (fs, r) → ∃ c, cs = c ++ r) ∧
    (∀ cs xs r, parseArrBody fuel cs = some (xs, r) → ∃ c, cs = c ++ r) ∧
    (∀ cs xs r, parseElems fuel cs = some (xs, r) → ∃ c, cs = c ++ r) := by
  induction fuel with
  | zero =>
    refine ⟨?_, ?_, ?_, ?_, ?_⟩ <;> intro cs x r h <;>
      simp [parseValue_zero, parseObjBody_zero, parseMembers_zero,
        parseArrBody_zero, parseElems_zero] at h
  | succ n ih =>
    obtain ⟨ihv, iho, ihm, iha, ihe⟩ := ih
    refine ⟨?_, ?_, ?_, ?_, ?_⟩ <;> intro cs x r h
    · rw [parseValue_succ] at h
      split at h
      · rename_i rest
        obtain ⟨⟨p1, p2⟩, hp, hx⟩ := Option.map_eq_some'.mp h
        obtain ⟨c0, hc0⟩ := iho _ _ _ hp
        have hr : p2 = r := congrArg Prod.snd hx
        exact ⟨'\x7b' :: c0, by rw [hc0, hr]; rfl⟩
      · rename_i rest
        obtain ⟨⟨p1, p2⟩, hp, hx⟩ := Option.map_eq_some'.mp h
        obtain ⟨c0, hc0⟩ := iha _ _ _ hp
        have hr : p2 = r := congrArg Prod.snd hx
        exact ⟨'[' :: c0, by rw [hc0, hr]; rfl⟩
      · rename_i rest
        obtain ⟨⟨p1, p2⟩, hp, hx⟩ := Option.map_eq_some'.mp h
        obtain ⟨c0, hc0⟩ := parseStringBody_split rest _ _ hp
        have hr : p2 = r := congrArg Prod.snd hx
        exact ⟨'\"' :: c0, by rw [hc0, hr]; rfl⟩
      · rename_i rest
        injection h with h1
        have hr : rest = r := congrArg Prod.snd h1
        exact ⟨['t', 'r', 'u', 'e'], by rw [hr]; rfl⟩
      · rename_i rest
        injection h with h1
        have hr : rest = r := congrArg Prod.snd h1
        exact ⟨['f', 'a', 'l', 's', 'e'], by rw [hr]; rfl⟩
      · rename_i rest
        injection h with h1
        have hr : rest = r := congrArg Prod.snd h1
        exact ⟨['n', 'u', 'l', 'l'], by rw [hr]; rfl⟩
      · split at h
        · obtain ⟨⟨p1, p2⟩, hp, hx⟩ := Option.map_eq_some'.mp h
          have hr : p2 = r := congrArg Prod.snd hx
          obtain ⟨c0, hc0⟩ := parseNumber_split _ _ _ hp
          exact ⟨c0, by rw [hc0, hr]⟩
        · exact Option.noConfusion h
      · exact Option.noConfusion h
    · rcases (parseObjBody_succ_cases n cs (x, r)).mp h with ⟨r2, heq, hx⟩ | ⟨-, hm⟩
      · obtain ⟨w, hw, -⟩ := skipWs_decomp cs
        have hr : r2 = r := (congrArg Prod.snd hx).symm
        exact ⟨w ++ ['\x7d'], by rw [hw, heq, hr]; simp⟩
      · obtain ⟨c0, hc0⟩ := ihm _ _ _ hm
        obtain ⟨w, hw, -⟩ := skipWs_decomp cs
        exact ⟨w ++ c0, by rw [hw, hc0]; simp⟩
    · rw [parseMembers_succ] at h
      split at h
      · rename_i rest
        obtain ⟨kr, hkr, h⟩ := Option.bind_eq_some.mp h
        obtain ⟨r2, hr2, h⟩ := Option.bind_eq_some.mp h
        obtain ⟨vr, hvr, h⟩ := Option.bind_eq_some.mp h
        obtain ⟨c1, hc1⟩ := parseStringBody_split rest _ _ (by
          rw [hkr])
        obtain ⟨c2, hc2⟩ := expectColon_split _ _ hr2
        obtain ⟨w3, hw3, -⟩ := skipWs_decomp r2
        obtain ⟨c3, hc3⟩ := ihv _ _ _ (by rw [hvr])
        rcases (memberTail_cases n _ _ _ (x, r)).mp h with
          ⟨r4, heq4, hmap⟩ | ⟨r4, heq4, hx⟩
        · obtain ⟨⟨p1, p2⟩, hp, hx⟩ := Option.map_eq_some'.mp hmap
          have hr : p2 = r := congrArg Prod.snd hx
          obtain ⟨w4, hw4, -⟩ := skipWs_decomp vr.2
          obtain ⟨w5, hw5, -⟩ := skipWs_decomp r4
          obtain ⟨c5, hc5⟩ := ihm _ _ _ hp
          refine ⟨'\"' :: c1 ++ c2 ++ w3 ++ c3 ++ w4 ++ [','] ++ w5 ++ c5, ?_⟩
          rw [List.cons_append, hc1, hc2, hw3, hc3, hw4, heq4]
          rw [show (',' :: r4) = [','] ++ r4 from rfl, hw5, hc5, hr]
          simp
        · obtain ⟨w4, hw4, -⟩ := skipWs_decomp vr.2
          have hr : r4 = r := (congrArg Prod.snd hx).symm
          refine ⟨'\"' :: c1 ++ c2 ++ w3 ++ c3 ++ w4 ++ ['\x7d'], ?_⟩
          rw [List.cons_append, hc1, hc2, hw3, hc3, hw4, heq4, hr]
          simp
      · exact Option.noConfusion h
    · rcases (parseArrBody_succ_cases n cs (x, r)).mp h with ⟨r2, heq, hx⟩ | ⟨-, hm⟩
      · obtain ⟨w, hw, -⟩ := skipWs_decomp cs
        have hr : r2 = r := (congrArg Prod.snd hx).symm
        exact ⟨w ++ [']'], by rw [hw, heq, hr]; simp⟩
      · obtain ⟨c0, hc0⟩ := ihe _ _ _ hm
        obtain ⟨w, hw, -⟩ := skipWs_decomp cs
        exact ⟨w ++ c0, by rw [hw, hc0]; simp⟩
    · rw [parseElems_succ] at h
      obtain ⟨vr, hvr, h⟩ := Option.bind_eq_some.mp h
      obtain ⟨c1, hc1⟩ := ihv _ _ _ (by rw [hvr])
      rcases (elemTail_cases n _ _ (x, r)).mp h with
        ⟨r2, heq2, hmap⟩ | ⟨r2, heq2, hx⟩
      · obtain ⟨⟨p1, p2⟩, hp, hx⟩ := Option.map_eq_some'.mp hmap
        have hr : p2 = r := congrArg Prod.snd hx
        obtain ⟨w2, hw2, -⟩ := skipWs_decomp vr.2
        obtain ⟨w3, hw3, -⟩ := skipWs_decomp r2
        obtain ⟨c3, hc3⟩ := ihe _ _ _ hp
        refine ⟨c1 ++ w2 ++ [','] ++ w3 ++ c3, ?_⟩
        rw [hc1, hw2, heq2]
        rw [show (',' :: r2) = [','] ++ r2 from rfl, hw3, hc3, hr]
        simp
      · obtain ⟨w2, hw2, -⟩ := skipWs_decomp vr.2
        have hr : r2 = r := (congrArg Prod.snd hx).symm
        refine ⟨c1 ++ w2 ++ [']'], ?_⟩
        rw [hc1, hw2, heq2, hr]
        simp

theorem parseAppendAll (fuel : Nat) (b : List Char) :
    (∀ cs v r, parseValue fuel cs = some (v, r) → headSafe r →
       parseValue fuel (cs ++ b) = some (v, r ++ b)) ∧
    (∀ cs fs r, parseObjBody fuel cs = some (fs, r) →
       parseObjBody fuel (cs ++ b) = some (fs, r ++ b)) ∧
    (∀ cs fs r, parseMembers fuel cs = some (fs, r) →
       parseMembers fuel (cs ++ b) = some (fs, r ++ b)) ∧
    (∀ cs xs r, parseArrBody fuel cs = some (xs, r) →
       parseArrBody fuel (cs ++ b) = some (xs, r ++ b)) ∧
    (∀ cs xs r, parseElems fuel cs = some (xs, r) →
       parseElems fuel (cs ++ b) = some (xs, r ++ b)) := by
  induction fuel with
  | zero =>
    refine ⟨?_, ?_, ?_, ?_, ?_⟩ <;> intro cs x r h <;>
      simp [parseValue_zero, parseObjBody_zero, parseMembers_zero,
        parseArrBody_zero, parseElems_zero] at h
  | succ n ih =>
    obtain ⟨ihv, iho, ihm, iha, ihe⟩ := ih
    have hskip : ∀ (u : List Char) (d : Char) (t : List Char),
        skipWs u = d :: t → skipWs (u ++ b) = d :: (t ++ b) := by
      intro u d t hu
      rw [skipWs_append_ne_nil u b (by rw [hu]; simp), hu]
      rfl
    refine ⟨?_, ?_, ?_, ?_, ?_⟩
    · intro cs v r h hsafe
      rw [parseValue_succ] at h
      split at h
      · rename_i rest
        obtain ⟨⟨p1, p2⟩, hp, hx⟩ := Option.map_eq_some'.mp h
        simp only [List.cons_append]
        rw [parseValue_succ]
        exact Option.map_eq_some'.mpr ⟨(p1, p2 ++ b), iho _ _ _ hp, by
          injection hx with hx1 hx2
          dsimp only at hx1 hx2 ⊢
          rw [hx1, hx2]⟩
      · rename_i rest
        obtain ⟨⟨p1, p2⟩, hp, hx⟩ := Option.map_eq_some'.mp h
        simp only [List.cons_append]
        rw [parseValue_succ]
        exact Option.map_eq_some'.mpr ⟨(p1, p2 ++ b), iha _ _ _ hp, by
          injection hx with hx1 hx2
          dsimp only at hx1 hx2 ⊢
          rw [hx1, hx2]⟩
      · rename_i rest
        obtain ⟨⟨p1, p2⟩, hp, hx⟩ := Option.map_eq_some'.mp h
        simp only [List.cons_append]
        rw [parseValue_succ]
        exact Option.map_eq_some'.mpr
          ⟨(p1, p2 ++ b), parseStringBody_append rest b _ _ hp, by
            injection hx with hx1 hx2
            dsimp only at hx1 hx2 ⊢
            rw [hx1, hx2]⟩
      · rename_i rest
        injection h with h1
        injection h1 with hv hr
        simp only [List.cons_append]
        rw [parseValue_succ, ← hv, ← hr]
        rfl
      · rename_i rest
        injection h with h1
        injection h1 with hv hr
        simp only [List.cons_append]
        rw [parseValue_succ, ← hv, ← hr]
        rfl
      · rename_i rest
        injection h with h1
        injection h1 with hv hr
        simp only [List.cons_append]
        rw [parseValue_succ, ← hv, ← hr]
        rfl
      · rename_i c tail hn1 hn2 hn3 hn4 hn5 hn6
        split at h
        · rename_i hc
          obtain ⟨⟨tok, rt⟩, hp, hx⟩ := Option.map_eq_some'.mp h
          have hrt : rt = r := congrArg Prod.snd hx
          have hv : Json.num tok = v := congrArg Prod.fst hx
          simp only [List.cons_append]
          rw [parseValue_succ]
          split
          · rename_i heq
            injection heq with he _
            rw [he] at hc
            exact absurd hc (by decide)
          · rename_i heq
            injection heq with he _
            rw [he] at hc
            exact absurd hc (by decide)
          · rename_i heq
            injection heq with he _
            rw [he] at hc
            exact absurd hc (by decide)
          · rename_i rest2 heq
            injection heq with he ht
            rw [he] at hc
            exact absurd hc (by decide)
          · rename_i rest2 heq
            injection heq with he ht
            rw [he] at hc
            exact absurd hc (by decide)
          · rename_i rest2 heq
            injection heq with he ht
            rw [he] at hc
            exact absurd hc (by decide)
          · rename_i heq
            injection heq with he ht
            subst he
            subst ht
            rw [if_pos hc]
            have hnum := parseNumber_append (c :: tail) b tok rt hp
              (by rw [hrt]; exact hsafe)
            rw [List.cons_append] at hnum
            rw [hnum]
            simp only [Option.map_some']
            rw [hv, hrt]
          · rename_i heq
            exact absurd heq (by simp)
        · exact Option.noConfusion h
      · exact Option.noConfusion h
    · intro cs fs r h
      rcases (parseObjBody_succ_cases n cs (fs, r)).mp h with ⟨r2, heq, hx⟩ | ⟨hne, hm⟩
      · refine (parseObjBody_succ_cases n (cs ++ b) (fs, r ++ b)).mpr
          (Or.inl ⟨r2 ++ b, hskip cs '\x7d' r2 heq, ?_⟩)
        injection hx with hx1 hx2
        rw [hx1, hx2]
      · have hnn : skipWs cs ≠ [] := by
          intro hnil
          rw [hnil, parseMembers_nil] at hm
          exact Option.noConfusion hm
        match hsw : skipWs cs, hnn with
        | d :: t, _ =>
          refine (parseObjBody_succ_cases n (cs ++ b) (fs, r ++ b)).mpr
            (Or.inr ⟨?_, ?_⟩)
          · intro r' hr'
            rw [hskip cs d t hsw] at hr'
            injection hr' with hd _
            rw [hd] at hsw
            exact hne t hsw
          · rw [hskip cs d t hsw]
            have hm2 : parseMembers n (d :: t) = some (fs, r) := by
              rw [← hsw]
              exact hm
            have h3 := ihm (d :: t) _ _ hm2
            simpa using h3
    · intro cs fs r h
      rw [parseMembers_succ] at h
      split at h
      · rename_i rest
        obtain ⟨⟨key, kr2⟩, hkr, h⟩ := Option.bind_eq_some.mp h
        obtain ⟨r2, hr2, h⟩ := Option.bind_eq_some.mp h
        obtain ⟨⟨v0, vr2⟩, hvr, h⟩ := Option.bind_eq_some.mp h
        have hswr2 : skipWs r2 ≠ [] := by
          intro hnil
          rw [hnil, parseValue_nil] at hvr
          exact Option.noConfusion hvr
        have hskipr2 : skipWs (r2 ++ b) = skipWs r2 ++ b :=
          skipWs_append_ne_nil r2 b hswr2
        simp only [List.cons_append]
        rw [parseMembers_succ]
        refine Option.bind_eq_some.mpr
          ⟨(key, kr2 ++ b), parseStringBody_append rest b _ _ hkr, ?_⟩
        refine Option.bind_eq_some.mpr
          ⟨r2 ++ b, expectColon_append kr2 b r2 hr2, ?_⟩
        rcases (memberTail_cases n _ _ _ (fs, r)).mp h with
          ⟨r4, heq4, hmap⟩ | ⟨r4, heq4, hx⟩
        · have hsafe : headSafe vr2 :=
            headSafe_of_skipWs vr2 ',' r4 heq4 (by decide)
          refine Option.bind_eq_some.mpr
            ⟨(v0, vr2 ++ b), by rw [hskipr2]; exact ihv _ _ _ hvr hsafe, ?_⟩
          obtain ⟨⟨p1, p2⟩, hp, hxm⟩ := Option.map_eq_some'.mp hmap
          have hswr4 : skipWs r4 ≠ [] := by
            intro hnil
            rw [hnil, parseMembers_nil] at hp
            exact Option.noConfusion hp
          refine (memberTail_cases n _ _ _ (fs, r ++ b)).mpr (Or.inl
            ⟨r4 ++ b, hskip vr2 ',' r4 heq4, ?_⟩)
          rw [skipWs_append_ne_nil r4 b hswr4]
          refine Option.map_eq_some'.mpr ⟨(p1, p2 ++ b), ihm _ _ _ hp, ?_⟩
          injection hxm with hxm1 hxm2
          dsimp only at hxm1 hxm2 ⊢
          rw [hxm1, hxm2]
        · have hsafe : headSafe vr2 :=
            headSafe_of_skipWs vr2 '\x7d' r4 heq4 (by decide)
          refine Option.bind_eq_some.mpr
            ⟨(v0, vr2 ++ b), by rw [hskipr2]; exact ihv _ _ _ hvr hsafe, ?_⟩
          refine (memberTail_cases n _ _ _ (fs, r ++ b)).mpr (Or.inr
            ⟨r4 ++ b, hskip vr2 '\x7d' r4 heq4, ?_⟩)
          injection hx with hx1 hx2
          rw [hx1, hx2]
      · exact Option.noConfusion h
    · intro cs xs r h
      rcases (parseArrBody_succ_cases n cs (xs, r)).mp h with ⟨r2, heq, hx⟩ | ⟨hne, hm⟩
      · refine (parseArrBody_succ_cases n (cs ++ b) (xs, r ++ b)).mpr
          (Or.inl ⟨r2 ++ b, hskip cs ']' r2 heq, ?_⟩)
        injection hx with hx1 hx2
        rw [hx1, hx2]
      · have hnn : skipWs cs ≠ [] := by
          intro hnil
          rw [hnil, parseElems_nil] at hm
          exact Option.noConfusion hm
        match hsw : skipWs cs, hnn with
        | d :: t, _ =>
          refine (parseArrBody_succ_cases n (cs ++ b) (xs, r ++ b)).mpr
            (Or.inr ⟨?_, ?_⟩)
          · intro r' hr'
            rw [hskip cs d t hsw] at hr'
            injection hr' with hd _
            rw [hd] at hsw
            exact hne t hsw
          · rw [hskip cs d t hsw]
            have hm2 : parseElems n (d :: t) = some (xs, r) := by
              rw [← hsw]
              exact hm
            have h3 := ihe (d :: t) _ _ hm2
            simpa using h3
    · intro cs xs r h
      rw [parseElems_succ] at h
      obtain ⟨⟨v0, vr2⟩, hvr, h⟩ := Option.bind_eq_some.mp h
      rw [parseElems_succ]
      rcases (elemTail_cases n _ _ (xs, r)).mp h with
        ⟨r2, heq2, hmap⟩ | ⟨r2, heq2, hx⟩
      · have hsafe : headSafe vr2 :=
          headSafe_of_skipWs vr2 ',' r2 heq2 (by decide)
        refine Option.bind_eq_some.mpr
          ⟨(v0, vr2 ++ b), ihv _ _ _ hvr hsafe, ?_⟩
        obtain ⟨⟨p1, p2⟩, hp, hxm⟩ := Option.map_eq_some'.mp hmap
        have hswr2 : skipWs r2 ≠ [] := by
          intro hnil
          rw [hnil, parseElems_nil] at hp
          exact Option.noConfusion hp
        refine (elemTail_cases n _ _ (xs, r ++ b)).mpr (Or.inl
          ⟨r2 ++ b, hskip vr2 ',' r2 heq2, ?_⟩)
        rw [skipWs_append_ne_nil r2 b hswr2]
        refine Option.map_eq_some'.mpr ⟨(p1, p2 ++ b), ihe _ _ _ hp, ?_⟩
        injection hxm with hxm1 hxm2
        dsimp only at hxm1 hxm2 ⊢
        rw [hxm1, hxm2]
      · have hsafe : headSafe vr2 :=
          headSafe_of_skipWs vr2 ']' r2 heq2 (by decide)
        refine Option.bind_eq_some.mpr
          ⟨(v0, vr2 ++ b), ihv _ _ _ hvr hsafe, ?_⟩
        refine (elemTail_cases n _ _ (xs, r ++ b)).mpr (Or.inr
          ⟨r2 ++ b, hskip vr2 ']' r2 heq2, ?_⟩)
        injection hx with hx1 hx2
        rw [hx1, hx2]

theorem parseCloseAll (fuel : Nat) :
    (∀ cs fs r, parseObjBody fuel cs = some (fs, r) →
       ∃ c, cs = c ++ '\x7d' :: r) ∧
    (∀ cs fs r, parseMembers fuel cs = some (fs, r) →
       ∃ c, cs = c ++ '\x7d' :: r) := by
  induction fuel with
  | zero =>
    refine ⟨?_, ?_⟩ <;> intro cs fs r h <;>
      simp [parseObjBody_zero, parseMembers_zero] at h
  | succ n ih =>
    obtain ⟨iho, ihm⟩ := ih
    refine ⟨?_, ?_⟩ <;> intro cs fs r h
    · rcases (parseObjBody_succ_cases n cs (fs, r)).mp h with ⟨r2, heq, hx⟩ | ⟨-, hm⟩
      · obtain ⟨w, hw, -⟩ := skipWs_decomp cs
        have hr : r2 = r := (congrArg Prod.snd hx).symm
        exact ⟨w, by rw [hw, heq, hr]⟩
      · obtain ⟨c0, hc0⟩ := ihm _ _ _ hm
        obtain ⟨w, hw, -⟩ := skipWs_decomp cs
        exact ⟨w ++ c0, by rw [hw, hc0]; simp⟩
    · rw [parseMembers_succ] at h
      split at h
      · rename_i rest
        obtain ⟨kr, hkr, h⟩ := Option.bind_eq_some.mp h
        obtain ⟨r2, hr2, h⟩ := Option.bind_eq_some.mp h
        obtain ⟨vr, hvr, h⟩ := Option.bind_eq_some.mp h
        obtain ⟨c1, hc1⟩ := parseStringBody_split rest _ _ (by rw [hkr])
        obtain ⟨c2, hc2⟩ := expectColon_split _ _ hr2
        obtain ⟨w3, hw3, -⟩ := skipWs_decomp r2
        obtain ⟨c3, hc3⟩ := (parseSplitAll n).1 _ _ _ (by rw [hvr])
        rcases (memberTail_cases n _ _ _ (fs, r)).mp h with
          ⟨r4, heq4, hmap⟩ | ⟨r4, heq4, hx⟩
        · obtain ⟨⟨p1, p2⟩, hp, hxm⟩ := Option.map_eq_some'.mp hmap
          have hr : p2 = r := congrArg Prod.snd hxm
          obtain ⟨w4, hw4, -⟩ := skipWs_decomp vr.2
          obtain ⟨w5, hw5, -⟩ := skipWs_decomp r4
          obtain ⟨c5, hc5⟩ := ihm _ _ _ hp
          refine ⟨'\"' :: c1 ++ c2 ++ w3 ++ c3 ++ w4 ++ [','] ++ w5 ++ c5, ?_⟩
          rw [List.cons_append, hc1, hc2, hw3, hc3, hw4, heq4]
          rw [show (',' :: r4) = [','] ++ r4 from rfl, hw5, hc5, hr]
          simp
        · obtain ⟨w4, hw4, -⟩ := skipWs_decomp vr.2
          have hr : r4 = r := (congrArg Prod.snd hx).symm
          refine ⟨'\"' :: c1 ++ c2 ++ w3 ++ c3 ++ w4, ?_⟩
          rw [List.cons_append, hc1, hc2, hw3, hc3, hw4, heq4, hr]
          simp
      · exact Option.noConfusion h

theorem skipWs_le_length (cs : List Char) : (skipWs cs).length ≤ cs.length := by
  obtain ⟨w, hw, -⟩ := skipWs_decomp cs
  conv_rhs => rw [hw]
  simp

/-- Fuel descent: above the per-function linear thresholds, a successful
parse at `fuel + 1` already succeeds at `fuel` with the same result.  An
array level is the worst case, spending 3 fuel (value, arrBody, elems)
per consumed `[`; every other fuel decrement rides along with at least as
much consumed input. -/
theorem parseDownStep (fuel : Nat) :
    (∀ cs x, 3 * cs.length + 1 ≤ fuel →
      parseValue (fuel + 1) cs = some x → parseValue fuel cs = some x) ∧
    (∀ cs x, 3 * cs.length + 2 ≤ fuel →
      parseObjBody (fuel + 1) cs = some x → parseObjBody fuel cs = some x) ∧
    (∀ cs x, 3 * cs.length + 1 ≤ fuel →
      parseMembers (fuel + 1) cs = some x → parseMembers fuel cs = some x) ∧
    (∀ cs x, 3 * cs.length + 3 ≤ fuel →
      parseArrBody (fuel + 1) cs = some x → parseArrBody fuel cs = some x) ∧
    (∀ cs x, 3 * cs.length + 2 ≤ fuel →
      parseElems (fuel + 1) cs = some x → parseElems fuel cs = some x) := by
  induction fuel with
  | zero =>
    refine ⟨?_, ?_, ?_, ?_, ?_⟩ <;> intro cs x hb h <;> omega
  | succ n ih =>
    obtain ⟨ihv, iho, ihm, iha, ihe⟩ := ih
    refine ⟨?_, ?_, ?_, ?_, ?_⟩ <;> intro cs x hb h
    · rw [parseValue_succ] at h
      rw [parseValue_succ]
      split at h
      · rename_i rest
        simp only [List.length_cons] at hb
        obtain ⟨p, hp, hx⟩ := Option.map_eq_some'.mp h
        exact Option.map_eq_some'.mpr ⟨p, iho _ _ (by omega) hp, hx⟩
      · rename_i rest
        simp only [List.length_cons] at hb
        obtain ⟨p, hp, hx⟩ := Option.map_eq_some'.mp h
        exact Option.map_eq_some'.mpr ⟨p, iha _ _ (by omega) hp, hx⟩
      · exact h
      · exact h
      · exact h
      · exact h
      · split at h
        · rename_i hc
          rw [if_pos hc]
          exact h
        · exact Option.noConfusion h
      · exact Option.noConfusion h
    · rcases (parseObjBody_succ_cases (n + 1) cs x).mp h with ⟨r, heq, hx⟩ | ⟨hne, hm⟩
      · exact (parseObjBody_succ_cases n cs x).mpr (Or.inl ⟨r, heq, hx⟩)
      · refine (parseObjBody_succ_cases n cs x).mpr (Or.inr ⟨hne, ihm _ _ ?_ hm⟩)
        have h1 := skipWs_le_length cs
        omega
    · rw [parseMembers_succ] at h
      rw [parseMembers_succ]
      split at h
      · rename_i rest
        simp only [List.length_cons] at hb
        obtain ⟨kr, hkr, h⟩ := Option.bind_eq_some.mp h
        obtain ⟨r2, hr2, h⟩ := Option.bind_eq_some.mp h
        obtain ⟨vr, hvr, h⟩ := Option.bind_eq_some.mp h
        have hlr1 : kr.2.length ≤ rest.length := by
          obtain ⟨c0, hc0⟩ := parseStringBody_split rest kr.1 kr.2 hkr
          rw [hc0]
          simp
        have hlr2 : r2.length ≤ kr.2.length := by
          obtain ⟨c1, hc1⟩ := expectColon_split kr.2 r2 hr2
          rw [hc1]
          simp
        have hswr2 := skipWs_le_length r2
        refine Option.bind_eq_some.mpr ⟨kr, hkr, ?_⟩
        refine Option.bind_eq_some.mpr ⟨r2, hr2, ?_⟩
        refine Option.bind_eq_some.mpr ⟨vr, ihv _ _ (by omega) hvr, ?_⟩
        rcases (memberTail_cases (n + 1) _ _ _ x).mp h with
          ⟨r4, heq, hmap⟩ | ⟨r4, heq, hx⟩
        · obtain ⟨p, hp, hx⟩ := Option.map_eq_some'.mp hmap
          refine (memberTail_cases n _ _ _ x).mpr
            (Or.inl ⟨r4, heq, Option.map_eq_some'.mpr ⟨p, ihm _ _ ?_ hp, hx⟩⟩)
          have h1 := skipWs_le_length r4
          have h2 : (skipWs vr.2).length = r4.length + 1 := by
            rw [heq]
            rfl
          have h3 := skipWs_le_length vr.2
          obtain ⟨c2, hc2⟩ := (parseSplitAll (n + 1)).1 (skipWs r2) vr.1 vr.2 hvr
          have h4 : vr.2.length ≤ (skipWs r2).length := by
            rw [hc2]
            simp
          omega
        · exact (memberTail_cases n _ _ _ x).mpr (Or.inr ⟨r4, heq, hx⟩)
      · exact Option.noConfusion h
    · rcases (parseArrBody_succ_cases (n + 1) cs x).mp h with ⟨r, heq, hx⟩ | ⟨hne, hm⟩
      · exact (parseArrBody_succ_cases n cs x).mpr (Or.inl ⟨r, heq, hx⟩)
      · refine (parseArrBody_succ_cases n cs x).mpr (Or.inr ⟨hne, ihe _ _ ?_ hm⟩)
        have h1 := skipWs_le_length cs
        omega
    · rw [parseElems_succ] at h
      rw [parseElems_succ]
      obtain ⟨vr, hvr, h⟩ := Option.bind_eq_some.mp h
      refine Option.bind_eq_some.mpr ⟨vr, ihv _ _ (by omega) hvr, ?_⟩
      rcases (elemTail_cases (n + 1) _ _ x).mp h with
        ⟨r2, heq, hmap⟩ | ⟨r2, heq, hx⟩
      · obtain ⟨p, hp, hx⟩ := Option.map_eq_some'.mp hmap
        refine (elemTail_cases n _ _ x).mpr
          (Or.inl ⟨r2, heq, Option.map_eq_some'.mpr ⟨p, ihe _ _ ?_ hp, hx⟩⟩)
        have h1 := skipWs_le_length r2
        have h2 : (skipWs vr.2).length = r2.length + 1 := by
          rw [heq]
          rfl
        have h3 := skipWs_le_length vr.2
        obtain ⟨c0, hc0⟩ := (parseSplitAll (n + 1)).1 cs vr.1 vr.2 hvr
        have h4 : vr.2.length ≤ cs.length := by
          rw [hc0]
          simp
        omega
      · exact (elemTail_cases n _ _ x).mpr (Or.inr ⟨r2, heq, hx⟩)

/-- Above the `3 * length + 1` threshold more fuel never changes the
parser's verdict, success or failure alike: `parseJsonL`'s fuel choice is
therefore faithful to the unbounded recursion of `JSON.parse`. -/
theorem parseStable (cs : List Char) (fuel : Nat)
    (h : 3 * cs.length + 1 ≤ fuel) :
    parseValue fuel cs = parseValue (3 * cs.length + 1) cs := by
  induction fuel with
  | zero => omega
  | succ n ih =>
    rcases Nat.lt_or_ge n (3 * cs.length + 1) with hlt | hge
    · have he : n + 1 = 3 * cs.length + 1 := by omega
      rw [he]
    · rw [← ih hge]
      rcases h2 : parseValue (n + 1) cs with _ | x
      · rcases h3 : parseValue n cs with _ | y
        · rfl
        · exact absurd ((parseMonoStep n).1 _ _ h3)
            (by rw [h2]; exact fun hh => Option.noConfusion hh)
      · exact ((parseDownStep n).1 cs x hge h2).symm

theorem parseValue_obj_elim (fuel : Nat) (cs : List Char)
    (f : List (String × Json)) (r : List Char)
    (h : parseValue fuel cs = some (Json.obj f, r)) :
    ∃ n rest fs0, fuel = n + 1 ∧ cs = '\x7b' :: rest ∧
      parseObjBody n rest = some (fs0, r) ∧ f = collapseFields fs0 := by
  match fuel with
  | 0 => exact absurd h (by simp [parseValue_zero])
  | n + 1 =>
    rw [parseValue_succ] at h
    split at h
    · rename_i rest
      obtain ⟨⟨p1, p2⟩, hp, hx⟩ := Option.map_eq_some'.mp h
      injection hx with hx1 hx2
      dsimp only at hx1 hx2
      injection hx1 with hx1
      exact ⟨n, rest, p1, rfl, rfl, by rw [hp, hx2], hx1.symm⟩
    · obtain ⟨⟨p1, p2⟩, hp, hx⟩ := Option.map_eq_some'.mp h
      injection hx with hx1 hx2
      exact Json.noConfusion hx1
    · obtain ⟨⟨p1, p2⟩, hp, hx⟩ := Option.map_eq_some'.mp h
      injection hx with hx1 hx2
      exact Json.noConfusion hx1
    · injection h with h1
      injection h1 with hx1 hx2
      exact Json.noConfusion hx1
    · injection h with h1
      injection h1 with hx1 hx2
      exact Json.noConfusion hx1
    · injection h with h1
      injection h1 with hx1 hx2
      exact Json.noConfusion hx1
    · split at h
      · obtain ⟨⟨p1, p2⟩, hp, hx⟩ := Option.map_eq_some'.mp h
        injection hx with hx1 hx2
        exact Json.noConfusion hx1
      · exact Option.noConfusion h
    · exact Option.noConfusion h

theorem skipWs_append_all_ws (a y : List Char) (h : ∀ c ∈ a, jsonWs c = true) :
    skipWs (a ++ y) = skipWs y := by
  induction a with
  | nil => rfl
  | cons c a ih =>
    have hc : jsonWs c = true := h c (by simp)
    rw [List.cons_append]
    show (if jsonWs c then skipWs (a ++ y) else c :: (a ++ y)) = skipWs y
    rw [if_pos hc]
    exact ih (fun d hd => h d (by simp [hd]))

/-- Parsing a full JSON text that contains a complete object text preceded
by open-brace-free characters can only return that object: the leading
characters must be whitespace, and the object parse then consumes exactly
the object text. -/
theorem jsonParse_sandwich (a t b2 : List Char) (f g : List (String × Json))
    (fuelT : Nat) (ha : ∀ c ∈ a, c ≠ '\x7b')
    (ht : parseValue fuelT t = some (Json.obj f, []))
    (hu : parseJsonL (a ++ (t ++ b2)) = some (Json.obj g)) : g = f := by
  obtain ⟨n, rest, fs0, hfuel, htshape, hbody, hf⟩ :=
    parseValue_obj_elim fuelT t f [] ht
  unfold parseJsonL at hu
  dsimp only at hu
  rcases hpv : parseValue (3 * (skipWs (a ++ (t ++ b2))).length + 1)
      (skipWs (a ++ (t ++ b2))) with _ | ⟨v', r⟩
  · rw [hpv] at hu
    exact Option.noConfusion hu
  · rw [hpv] at hu
    dsimp only at hu
    split at hu
    · injection hu with hu1
      subst hu1
      by_cases hsa : skipWs a = []
      · have hcs1 : skipWs (a ++ (t ++ b2)) = t ++ b2 := by
          rw [skipWs_append_all_ws a _ (skipWs_all_ws a hsa), htshape,
            List.cons_append]
          exact skipWs_of_head_not_ws _ _ (by decide)
        rw [hcs1] at hpv
        have happ := (parseAppendAll n b2).2.1 rest fs0 [] hbody
        have hval : parseValue (n + 1) (t ++ b2) = some (Json.obj f, b2) := by
          rw [htshape, List.cons_append, parseValue_succ]
          exact Option.map_eq_some'.mpr ⟨(fs0, b2), by simpa using happ, by
            dsimp only
            rw [hf]⟩
        have h1 := parseValue_mono
          (Nat.le_max_left (n + 1) (3 * (t ++ b2).length + 1)) hval
        have h2 := parseValue_mono
          (Nat.le_max_right (n + 1) (3 * (t ++ b2).length + 1)) hpv
        rw [h1] at h2
        injection h2 with h3
        injection h3 with h4 h5
        injection h4 with h6
        exact h6.symm
      · obtain ⟨d, w', hdw⟩ : ∃ d w', skipWs a = d :: w' := by
          rcases hsw : skipWs a with _ | ⟨d, w'⟩
          · exact absurd hsw hsa
          · exact ⟨d, w', rfl⟩
        have hcs1 : skipWs (a ++ (t ++ b2)) = d :: (w' ++ (t ++ b2)) := by
          rw [skipWs_append_ne_nil a _ hsa, hdw]
          rfl
        rw [hcs1] at hpv
        obtain ⟨n2, rest2, fs2, -, hshape2, -, -⟩ :=
          parseValue_obj_elim _ _ _ _ hpv
        injection hshape2 with hd2 _
        have hdin : d ∈ a := by
          obtain ⟨w, hw, -⟩ := skipWs_decomp a
          rw [hw, hdw]
          simp
        exact absurd hd2 (ha d hdin)
    · exact Option.noConfusion hu

theorem firstIdx_some (c : Char) (cs : List Char) (i : Nat)
    (h : firstIdx c cs = some i) : cs.get? i = some c := by
  induction cs generalizing i with
  | nil => exact absurd h (by simp [firstIdx])
  | cons d cs ih =>
    rw [firstIdx] at h
    by_cases hd : d = c
    · rw [if_pos hd] at h
      injection h with h1
      rw [← h1, hd]
      rfl
    · rw [if_neg hd] at h
      rcases hf : firstIdx c cs with _ | k
      · rw [hf] at h
        exact Option.noConfusion h
      · rw [hf] at h
        injection h with h1
        rw [← h1]
        exact ih k hf

theorem lastIdx_some (c : Char) (cs : List Char) (j : Nat)
    (h : lastIdx c cs = some j) : cs.get? j = some c := by
  induction cs generalizing j with
  | nil => exact absurd h (by simp [lastIdx])
  | cons d cs ih =>
    rw [lastIdx] at h
    rcases hf : lastIdx c cs with _ | k
    · rw [hf] at h
      by_cases hd : d = c
      · rw [if_pos hd] at h
        injection h with h1
        rw [← h1, hd]
        rfl
      · rw [if_neg hd] at h
        exact Option.noConfusion h
    · rw [hf] at h
      injection h with h1
      rw [← h1]
      exact ih k hf

theorem firstIdx_append_some (c : Char) (pre x : List Char) (k : Nat)
    (hpre : ∀ d ∈ pre, d ≠ c) (h : firstIdx c x = some k) :
    firstIdx c (pre ++ x) = some (pre.length + k) := by
  induction pre with
  | nil => simpa using h
  | cons d pre ih =>
    rw [List.cons_append, firstIdx,
      if_neg (hpre d (by simp)), ih (fun e he => hpre e (by simp [he]))]
    simp [Nat.add_assoc, Nat.add_comm 1 k]

theorem lastIdx_none (c : Char) (y : List Char) (h : ∀ d ∈ y, d ≠ c) :
    lastIdx c y = none := by
  induction y with
  | nil => rfl
  | cons d y ih =>
    rw [lastIdx, ih (fun e he => h e (by simp [he])), if_neg (h d (by simp))]

theorem lastIdx_append (c : Char) (x y : List Char) :
    lastIdx c (x ++ y) =
      (match lastIdx c y with
       | some k => some (x.length + k)
       | none => lastIdx c x) := by
  induction x with
  | nil =>
    rcases h : lastIdx c y with _ | k <;> simp [h, lastIdx]
  | cons d x ih =>
    rw [List.cons_append, lastIdx, ih]
    rcases h : lastIdx c y with _ | k
    · rw [lastIdx]
    · simp [Nat.add_assoc, Nat.add_comm 1 k]

theorem get_append_right (w x : List Char) (k : Nat) :
    (w ++ x).get? (w.length + k) = x.get? k := by
  induction w with
  | nil => simp
  | cons d w ih =>
    rw [List.cons_append]
    simpa [Nat.succ_add] using ih

/-- A successful object parse of a full text exhibits an ordered
open-brace/close-brace pair in the text. -/
theorem jsonParse_obj_pair (cs : List Char) (f : List (String × Json))
    (h : parseJsonL cs = some (Json.obj f)) :
    ∃ i j, i < j ∧ cs.get? i = some '\x7b' ∧ cs.get? j = some '\x7d' := by
  unfold parseJsonL at h
  dsimp only at h
  rcases hpv : parseValue (3 * (skipWs cs).length + 1) (skipWs cs) with _ | ⟨v', r⟩
  · rw [hpv] at h
    exact Option.noConfusion h
  · rw [hpv] at h
    dsimp only at h
    split at h
    · injection h with h1
      subst h1
      obtain ⟨n, rest, fs0, -, hshape, hbody, -⟩ :=
        parseValue_obj_elim _ _ _ _ hpv
      obtain ⟨c0, hc0⟩ := (parseCloseAll n).1 _ _ _ hbody
      obtain ⟨w, hw, -⟩ := skipWs_decomp cs
      refine ⟨w.length, w.length + (1 + c0.length), ?_, ?_, ?_⟩
      · omega
      · rw [hw, hshape]
        have := get_append_right w ('\x7b' :: rest) 0
        simpa using this
      · rw [hw, hshape, hc0]
        have := get_append_right w ('\x7b' :: (c0 ++ '\x7d' :: r))
          (1 + c0.length)
        rw [this]
        have h2 : ('\x7b' :: (c0 ++ '\x7d' :: r)).get? (1 + c0.length) =
            (c0 ++ '\x7d' :: r).get? c0.length := by
          rw [Nat.add_comm 1 c0.length]
          rfl
        rw [h2]
        have h3 := get_append_right c0 ('\x7d' :: r) 0
        simpa using h3
    · exact Option.noConfusion h

theorem takeWhile_all (p : Char → Bool) (l : List Char) :
    ∀ c ∈ l.takeWhile p, p c = true := by
  intro c hc
  induction l with
  | nil => exact absurd hc (by simp)
  | cons d l ih =>
    by_cases hd : p d = true
    · rw [List.takeWhile_cons, if_pos hd] at hc
      rcases List.mem_cons.mp hc with rfl | hc2
      · exact hd
      · exact ih hc2
    · rw [List.takeWhile_cons, if_neg hd] at hc
      exact absurd hc (by simp)

theorem jsWs_nonbrace (c : Char) (h : jsWsChar c = true) :
    c ≠ '\x7b' ∧ c ≠ '\x7d' := by
  simp only [jsWsChar, Bool.or_eq_true, decide_eq_true_eq] at h
  rcases h with ((((h | h) | h) | h) | h) | h <;> subst h <;> exact ⟨by decide, by decide⟩

theorem dropTrailing_decomp (p : Char → Bool) (u : List Char) :
    ∃ y, u = dropTrailing p u ++ y ∧ ∀ c ∈ y, p c = true := by
  refine ⟨(u.reverse.takeWhile p).reverse, ?_, ?_⟩
  · unfold dropTrailing
    have h := List.takeWhile_append_dropWhile (p := p) (l := u.reverse)
    have h2 := congrArg List.reverse h
    rw [List.reverse_append] at h2
    rw [h2]
    simp
  · intro c hc
    rw [List.mem_reverse] at hc
    exact takeWhile_all p u.reverse c hc

theorem trimWs_decomp (cs : List Char) :
    ∃ x y, cs = x ++ trimWs cs ++ y ∧
      (∀ c ∈ x, jsWsChar c = true) ∧ (∀ c ∈ y, jsWsChar c = true) := by
  obtain ⟨y, hy, hally⟩ := dropTrailing_decomp jsWsChar (cs.dropWhile jsWsChar)
  refine ⟨cs.takeWhile jsWsChar, y, ?_, takeWhile_all jsWsChar cs, hally⟩
  have e1 : trimWs cs = dropTrailing jsWsChar (cs.dropWhile jsWsChar) := rfl
  calc cs = cs.takeWhile jsWsChar ++ cs.dropWhile jsWsChar :=
        (List.takeWhile_append_dropWhile jsWsChar cs).symm
    _ = cs.takeWhile jsWsChar ++
          (dropTrailing jsWsChar (cs.dropWhile jsWsChar) ++ y) :=
        congrArg _ hy
    _ = cs.takeWhile jsWsChar ++ trimWs cs ++ y := by
        rw [e1, List.append_assoc]

theorem stripLeadingFence_decomp (cs : List Char) :
    ∃ x, cs = x ++ stripLeadingFence cs ∧
      ∀ c ∈ x, c ≠ '\x7b' ∧ c ≠ '\x7d' := by
  rw [stripLeadingFence.eq_def]
  split
  · rename_i rest
    set rest2 :=
      (match rest with
       | j :: s :: o :: n :: r2 =>
         if ciEq j 'j' && ciEq s 's' && ciEq o 'o' && ciEq n 'n' then r2 else rest
       | _ => rest) with hrest2
    have hsub : ∃ w, rest = w ++ rest2 ∧ ∀ c ∈ w, c ≠ '\x7b' ∧ c ≠ '\x7d' := by
      rw [hrest2]
      split
      · rename_i j s o n r2
        split
        · rename_i hjson
          simp only [Bool.and_eq_true] at hjson
          obtain ⟨⟨⟨hj, hs⟩, ho⟩, hn⟩ := hjson
          refine ⟨[j, s, o, n], by simp, ?_⟩
          intro c hc
          simp only [List.mem_cons, List.not_mem_nil, or_false] at hc
          have hlow : c.toLower = 'j' ∨ c.toLower = 's' ∨ c.toLower = 'o' ∨
              c.toLower = 'n' := by
            rcases hc with rfl | rfl | rfl | rfl
            · exact Or.inl (by simpa [ciEq] using hj)
            · exact Or.inr (Or.inl (by simpa [ciEq] using hs))
            · exact Or.inr (Or.inr (Or.inl (by simpa [ciEq] using ho)))
            · exact Or.inr (Or.inr (Or.inr (by simpa [ciEq] using hn)))
          constructor
          · intro hcb
            subst hcb
            rcases hlow with h | h | h | h <;> exact absurd h (by decide)
          · intro hcb
            subst hcb
            rcases hlow with h | h | h | h <;> exact absurd h (by decide)
        · exact ⟨[], by simp, by simp⟩
      · exact ⟨[], by simp, by simp⟩
    obtain ⟨w, hw, hallw⟩ := hsub
    refine ⟨'\x60' :: '\x60' :: '\x60' :: (w ++ rest2.takeWhile jsWsChar), ?_, ?_⟩
    · have h2 : rest2 = rest2.takeWhile jsWsChar ++ rest2.dropWhile jsWsChar :=
        (List.takeWhile_append_dropWhile jsWsChar rest2).symm
      rw [show ('\x60' :: '\x60' :: '\x60' :: (w ++ rest2.takeWhile jsWsChar)) ++
          rest2.dropWhile jsWsChar =
          '\x60' :: '\x60' :: '\x60' ::
            (w ++ (rest2.takeWhile jsWsChar ++ rest2.dropWhile jsWsChar)) by simp]
      rw [← h2, ← hw]
    · intro c hc
      simp only [List.mem_cons] at hc
      rcases hc with rfl | rfl | rfl | hc2
      · exact ⟨by decide, by decide⟩
      · exact ⟨by decide, by decide⟩
      · exact ⟨by decide, by decide⟩
      · rcases List.mem_append.mp hc2 with hcw | hct
        · exact hallw c hcw
        · exact jsWs_nonbrace c (takeWhile_all jsWsChar rest2 c hct)
  · exact ⟨[], by simp, by simp⟩

theorem stripTrailingFence_decomp (cs : List Char) :
    ∃ y, cs = stripTrailingFence cs ++ y ∧
      ∀ c ∈ y, c ≠ '\x7b' ∧ c ≠ '\x7d' := by
  rw [stripTrailingFence.eq_def]
  split
  · rename_i r heq
    refine ⟨(r.takeWhile jsWsChar).reverse ++ ['\x60', '\x60', '\x60'] ++
      (cs.reverse.takeWhile jsWsChar).reverse, ?_, ?_⟩
    · have h1 : cs.reverse = cs.reverse.takeWhile jsWsChar ++
          ('\x60' :: '\x60' :: '\x60' :: r) := by
        rw [← heq]
        exact (List.takeWhile_append_dropWhile jsWsChar cs.reverse).symm
      have h2 : r = r.takeWhile jsWsChar ++ r.dropWhile jsWsChar :=
        (List.takeWhile_append_dropWhile jsWsChar r).symm
      apply List.reverse_injective
      simp only [List.reverse_append, List.reverse_reverse]
      conv_lhs => rw [h1]
      conv_lhs => rw [h2]
      simp
    · intro c hc
      simp only [List.append_assoc, List.mem_append, List.mem_reverse,
        List.mem_cons, List.not_mem_nil, or_false] at hc
      rcases hc with hc | hc | hc
      · exact jsWs_nonbrace c (takeWhile_all jsWsChar r c hc)
      · rcases hc with rfl | rfl | rfl
        · exact ⟨by decide, by decide⟩
        · exact ⟨by decide, by decide⟩
        · exact ⟨by decide, by decide⟩
      · exact jsWs_nonbrace c (takeWhile_all jsWsChar cs.reverse c hc)
  · exact ⟨[], by simp, by simp⟩
/-- The fence-stripping and trimming pipeline of `extractJson` only
removes brace-free characters from the two ends. -/
theorem fenceStripped_decomp (cs : List Char) :
    ∃ x y, cs = x ++ trimWs (stripTrailingFence (stripLeadingFence cs)) ++ y ∧
      (∀ c ∈ x, c ≠ '\x7b' ∧ c ≠ '\x7d') ∧
      (∀ c ∈ y, c ≠ '\x7b' ∧ c ≠ '\x7d') := by
  obtain ⟨x1, hx1, hallx1⟩ := stripLeadingFence_decomp cs
  obtain ⟨y2, hy2, hally2⟩ := stripTrailingFence_decomp (stripLeadingFence cs)
  obtain ⟨x3, y3, hxy3, hallx3, hally3⟩ :=
    trimWs_decomp (stripTrailingFence (stripLeadingFence cs))
  refine ⟨x1 ++ x3, y3 ++ y2, ?_, ?_, ?_⟩
  · calc cs = x1 ++ stripLeadingFence cs := hx1
      _ = x1 ++ (stripTrailingFence (stripLeadingFence cs) ++ y2) :=
          congrArg _ hy2
      _ = x1 ++ ((x3 ++ trimWs (stripTrailingFence (stripLeadingFence cs)) ++
            y3) ++ y2) := congrArg _ (congrArg (· ++ y2) hxy3)
      _ = (x1 ++ x3) ++ trimWs (stripTrailingFence (stripLeadingFence cs)) ++
            (y3 ++ y2) := by simp
  · intro c hc
    rcases List.mem_append.mp hc with hc | hc
    · exact hallx1 c hc
    · exact jsWs_nonbrace c (hallx3 c hc)
  · intro c hc
    rcases List.mem_append.mp hc with hc | hc
    · exact jsWs_nonbrace c (hally3 c hc)
    · exact hally2 c hc

/-- No open or close brace occurs among these characters. -/
def braceFree (cs : List Char) : Prop :=
  ∀ c ∈ cs, c ≠ '\x7b' ∧ c ≠ '\x7d'

theorem getLast_mem_own (l : List Char) (c : Char) (h : l.getLast? = some c) :
    c ∈ l := by
  induction l with
  | nil => exact absurd h (by simp)
  | cons d l ih =>
    match l with
    | [] =>
      simp only [List.getLast?_singleton] at h
      injection h with h1
      simp [h1]
    | e :: l2 =>
      rw [List.getLast?_cons_cons] at h
      exact List.mem_cons_of_mem d (ih h)

/-- Splitting off brace-free outer parts cannot cut into a bracketed core:
if a string decomposes both as `pre ++ t ++ post` (braces only inside `t`,
which starts with an open brace and ends with a close brace) and as
`X ++ A ++ Y` with `X`, `Y` brace-free, then `A` still contains `t`
surrounded by brace-free residues. -/
theorem middle_preserved (pre t post X A Y : List Char)
    (heq : pre ++ t ++ post = X ++ A ++ Y)
    (hpre : braceFree pre) (hpost : braceFree post)
    (hX : braceFree X) (hY : braceFree Y)
    (t1 : List Char) (hhead : t = '\x7b' :: t1)
    (t2 : List Char) (hlast : t = t2 ++ ['\x7d']) :
    ∃ pre2 post2, A = pre2 ++ t ++ post2 ∧ braceFree pre2 ∧ braceFree post2 := by
  have hXlen : X.length ≤ pre.length := by
    by_contra hlt
    push_neg at hlt
    have hbrace : (pre ++ t ++ post).get? pre.length = some '\x7b' := by
      rw [List.append_assoc, hhead]
      have := get_append_right pre ('\x7b' :: t1 ++ post) 0
      simpa using this
    have hXeq : X = (pre ++ t ++ post).take X.length := by
      rw [heq, List.append_assoc, List.take_left]
    have hget : X.get? pre.length = some '\x7b' := by
      rw [hXeq, List.get?_take hlt, hbrace]
    exact absurd rfl (hX '\x7b' (List.get?_mem hget)).1
  have hYlen : Y.length ≤ post.length := by
    by_contra hlt
    push_neg at hlt
    have hbrace : (pre ++ t ++ post).reverse.get? post.length = some '\x7d' := by
      have hrev : (pre ++ t ++ post).reverse =
          post.reverse ++ ('\x7d' :: (t2.reverse ++ pre.reverse)) := by
        rw [hlast]
        simp
      rw [hrev]
      have h4 := get_append_right post.reverse
        ('\x7d' :: (t2.reverse ++ pre.reverse)) 0
      simpa using h4
    have hYeq : Y.reverse = (pre ++ t ++ post).reverse.take Y.length := by
      have h0 : (pre ++ t ++ post).reverse = Y.reverse ++ (A.reverse ++ X.reverse) := by
        rw [heq]
        simp
      rw [h0, show Y.length = Y.reverse.length from (List.length_reverse Y).symm,
        List.take_left]
    have hget : Y.reverse.get? post.length = some '\x7d' := by
      rw [hYeq, List.get?_take hlt, hbrace]
    have hmem : '\x7d' ∈ Y := by
      have := List.get?_mem hget
      rwa [List.mem_reverse] at this
    exact absurd rfl (hY '\x7d' hmem).2
  have hXpre : X = pre.take X.length := by
    have h1 : X = (pre ++ (t ++ post)).take X.length := by
      rw [← List.append_assoc, heq, List.append_assoc, List.take_left]
    conv_lhs => rw [h1]
    rw [List.take_append_of_le_length hXlen]
  have hYpost : Y.reverse = post.reverse.take Y.length := by
    have h1 : Y.reverse = ((pre ++ t ++ post).reverse).take Y.length := by
      have h0 : (pre ++ t ++ post).reverse =
          Y.reverse ++ (A.reverse ++ X.reverse) := by
        rw [heq]
        simp
      rw [h0, show Y.length = Y.reverse.length from (List.length_reverse Y).symm,
        List.take_left]
    have h2 : (pre ++ t ++ post).reverse =
        post.reverse ++ (t.reverse ++ pre.reverse) := by
      simp
    rw [h1, h2,
      List.take_append_of_le_length (by rw [List.length_reverse]; exact hYlen)]
  refine ⟨pre.drop X.length, (post.reverse.drop Y.length).reverse, ?_, ?_, ?_⟩
  · have hpre2 : pre = X ++ pre.drop X.length := by
      conv_lhs => rw [← List.take_append_drop X.length pre]
      rw [← hXpre]
    have hpost2 : post = (post.reverse.drop Y.length).reverse ++ Y := by
      apply List.reverse_injective
      rw [List.reverse_append, List.reverse_reverse]
      conv_lhs => rw [← List.take_append_drop Y.length post.reverse]
      rw [← hYpost]
    have hchain : X ++ (pre.drop X.length ++ t ++
        (post.reverse.drop Y.length).reverse) ++ Y = X ++ A ++ Y := by
      rw [← heq]
      conv_rhs => rw [hpre2, hpost2]
      simp
    have h2 := List.append_cancel_left
      (show X ++ ((pre.drop X.length ++ t ++
          (post.reverse.drop Y.length).reverse) ++ Y) = X ++ (A ++ Y) by
        simpa [List.append_assoc] using hchain)
    have h3 := List.append_cancel_right h2
    exact h3.symm
  · intro c hc
    exact hpre c (List.mem_of_mem_drop hc)
  · intro c hc
    rw [List.mem_reverse] at hc
    exact hpost c (by
      have := List.mem_of_mem_drop hc
      rwa [List.mem_reverse] at this)

theorem acceptCandidate_some (cs : List Char) (f : List (String × Json))
    (h : acceptCandidate cs = some f) : parseJsonL cs = some (Json.obj f) := by
  unfold acceptCandidate at h
  split at h
  · rename_i fs heq
    injection h with h1
    rw [heq, h1]
  · exact Option.noConfusion h

theorem acceptCandidate_obj (cs : List Char) (f : List (String × Json))
    (h : parseJsonL cs = some (Json.obj f)) : acceptCandidate cs = some f := by
  unfold acceptCandidate
  rw [h]

/-- If a raw text is an exact object text (starting `{`, ending `}`,
brace-free prose around it), `extractJson` recovers exactly that object's
fields: the fence-stripped first candidate can only agree, and the
brace-span candidate is the object text itself. -/
theorem extractJsonL_ok (pre t post : List Char) (f : List (String × Json))
    (hpre : braceFree pre) (hpost : braceFree post)
    (hhead : t.head? = some '\x7b') (hlast : t.getLast? = some '\x7d')
    (hparse : parseJsonL t = some (Json.obj f)) :
    extractJsonL (pre ++ t ++ post) = some f := by
  obtain ⟨t1, htshape⟩ : ∃ t1, t = '\x7b' :: t1 := by
    cases t with
    | nil => exact absurd hhead (by simp)
    | cons c t1 =>
      refine ⟨t1, ?_⟩
      injection hhead with h1
      rw [h1]
  have hskipt : skipWs t = t := by
    rw [htshape]
    exact skipWs_of_head_not_ws _ _ (by decide)
  have hparse2 := hparse
  unfold parseJsonL at hparse2
  dsimp only at hparse2
  rw [hskipt] at hparse2
  rcases hpv : parseValue (3 * t.length + 1) t with _ | ⟨v', r⟩
  · rw [hpv] at hparse2
    exact Option.noConfusion hparse2
  rw [hpv] at hparse2
  dsimp only at hparse2
  split at hparse2
  case isFalse => exact Option.noConfusion hparse2
  case isTrue hr0 =>
  injection hparse2 with hv'
  subst hv'
  obtain ⟨n, rest, fs0, -, htshape2, hbody, hf⟩ := parseValue_obj_elim _ _ _ _ hpv
  obtain ⟨c0, hc0⟩ := (parseCloseAll n).1 _ _ _ hbody
  have hrnil : r = [] := by
    by_contra hrne
    have ht3 : t = (('\x7b' :: c0) ++ ['\x7d']) ++ r := by
      rw [htshape2, hc0]
      simp
    have hl2 : t.getLast? = r.getLast? := by
      rw [ht3]
      exact List.getLast?_append_of_ne_nil _ hrne
    rw [hlast] at hl2
    have hmem := getLast_mem_own r '\x7d' hl2.symm
    have := skipWs_all_ws r hr0 '\x7d' hmem
    exact absurd this (by decide)
  have hvt : parseValue (3 * t.length + 1) t = some (Json.obj f, []) := by
    rw [hpv, hrnil]
  have ht4 : t = ('\x7b' :: c0) ++ ['\x7d'] := by
    rw [htshape2, hc0, hrnil]
    simp
  have htlen : t.length = c0.length + 2 := by
    rw [ht4]
    simp
  -- first candidate: fence strip, can only agree with f
  obtain ⟨X, Y, hXY, hXf, hYf⟩ := fenceStripped_decomp (pre ++ t ++ post)
  obtain ⟨pre2, post2, hA, hpre2, hpost2⟩ :=
    middle_preserved pre t post X
      (trimWs (stripTrailingFence (stripLeadingFence (pre ++ t ++ post)))) Y
      hXY hpre hpost hXf hYf t1 htshape ('\x7b' :: c0) ht4
  -- brace span candidate is exactly t
  have hfi : firstIdx '\x7b' (pre ++ t ++ post) = some pre.length := by
    rw [List.append_assoc]
    have h0 : firstIdx '\x7b' (t ++ post) = some 0 := by
      rw [htshape]
      simp [firstIdx]
    have h1 := firstIdx_append_some '\x7b' pre (t ++ post) 0
      (fun d hd => (hpre d hd).1) h0
    simpa using h1
  have hli : lastIdx '\x7d' (pre ++ t ++ post) =
      some (pre.length + (c0.length + 1)) := by
    have hpost0 : lastIdx '\x7d' post = none :=
      lastIdx_none _ _ (fun d hd => (hpost d hd).2)
    have ht0 : lastIdx '\x7d' t = some (c0.length + 1) := by
      rw [ht4, lastIdx_append]
      rw [show lastIdx '\x7d' ['\x7d'] = some 0 from rfl]
      simp
    have h1 : lastIdx '\x7d' (t ++ post) = some (c0.length + 1) := by
      rw [lastIdx_append, hpost0, ht0]
    rw [List.append_assoc, lastIdx_append, h1]
  have hslice : sliceL (pre ++ t ++ post) pre.length
      (pre.length + (c0.length + 1)) = t := by
    unfold sliceL
    rw [List.append_assoc, List.drop_left]
    rw [show pre.length + (c0.length + 1) - pre.length + 1 = t.length by
      rw [htlen]; omega]
    exact List.take_left t post
  have hspan : braceSpan (pre ++ t ++ post) = some t := by
    unfold braceSpan
    rw [hfi, hli]
    dsimp only
    rw [if_pos (by omega), hslice]
  have hregex : regexOuterBlock (pre ++ t ++ post) = some t := by
    unfold regexOuterBlock
    rw [hfi, hli]
    dsimp only
    rw [if_pos (by omega), hslice]
  have hattempts : extractAttempts (pre ++ t ++ post) =
      [trimWs (stripTrailingFence (stripLeadingFence (pre ++ t ++ post))), t, t] := by
    unfold extractAttempts
    rw [hspan, hregex]
    rfl
  unfold extractJsonL
  rw [hattempts]
  unfold firstAccepted
  rcases hacc : acceptCandidate
      (trimWs (stripTrailingFence (stripLeadingFence (pre ++ t ++ post)))) with
    _ | g
  · dsimp only
    unfold firstAccepted
    rw [acceptCandidate_obj t f hparse]
  · dsimp only
    have hg := acceptCandidate_some _ _ hacc
    rw [hA, List.append_assoc] at hg
    have := jsonParse_sandwich pre2 t post2 f g (3 * t.length + 1)
      (fun c hc => (hpre2 c hc).1) hvt hg
    rw [this]

theorem firstAccepted_mem (acc : List Char → Option (List (String × Json)))
    (l : List (List Char)) (v : List (String × Json))
    (h : firstAccepted acc l = some v) : ∃ c ∈ l, acc c = some v := by
  induction l with
  | nil =>
    rw [firstAccepted] at h
    exact Option.noConfusion h
  | cons c rest ih =>
    rw [firstAccepted] at h
    rcases hc : acc c with _ | w
    · rw [hc] at h
      dsimp only at h
      obtain ⟨d, hd, hdv⟩ := ih h
      exact ⟨d, List.mem_cons_of_mem c hd, hdv⟩
    · rw [hc] at h
      dsimp only at h
      injection h with h1
      exact ⟨c, List.mem_cons_self c rest, by rw [hc, h1]⟩

theorem getKey_setKey_self (fs : List (String × Json)) (k : String) (v : Json) :
    getKey (setKey fs k v) k = some v := by
  induction fs with
  | nil => simp [setKey, getKey]
  | cons p rest ih =>
    rw [setKey]
    by_cases hk : p.1 = k
    · rw [if_pos hk, getKey, if_pos hk]
    · rw [if_neg hk, getKey, if_neg hk]
      exact ih

theorem getKey_setKey_ne (fs : List (String × Json)) (k k2 : String) (v : Json)
    (h : k2 ≠ k) : getKey (setKey fs k v) k2 = getKey fs k2 := by
  induction fs with
  | nil =>
    simp only [setKey, getKey]
    rw [if_neg]
    exact fun he => h he.symm
  | cons p rest ih =>
    rw [setKey]
    by_cases hk : p.1 = k
    · rw [if_pos hk, getKey, getKey]
      by_cases h2 : p.1 = k2
      · exact absurd (h2.symm.trans hk) h
      · rw [if_neg h2, if_neg h2]
    · rw [if_neg hk, getKey, getKey]
      by_cases h2 : p.1 = k2
      · rw [if_pos h2, if_pos h2]
      · rw [if_neg h2, if_neg h2]
        exact ih

/-- C1 (counterexample): the text `\x7b x \x7b"a":"b"\x7d y \x7d` contains exactly
one well-formed JSON object, `\x7b"a":"b"\x7d`, surrounded by prose — yet
`extractJson` returns null on it: the prose contains braces, so the
brace-span and regex candidates grab `\x7b x ... y \x7d`, which does not parse,
and the fence-strip candidate is the whole text.  The spec's claim that
extraction succeeds for arbitrary surrounding prose is therefore false. -/
theorem extractJson_prose_cex :
    "\x7b x \x7b\"a\":\"b\"\x7d y \x7d" =
      "\x7b x " ++ "\x7b\"a\":\"b\"\x7d" ++ " y \x7d" ∧
    parseJsonL "\x7b\"a\":\"b\"\x7d".data =
      some (Json.obj [("a", Json.str "b")]) ∧
    extractJson "\x7b x \x7b\"a\":\"b\"\x7d y \x7d" = none :=
  ⟨rfl, rfl, rfl⟩

/-- C1 (amended): when the prose and whitespace surrounding the single
well-formed JSON object are brace-free and the object text itself starts
with `\x7b` and ends with `\x7d`, `extractJson` returns exactly that object's
key-value pairs, by the ordered three-strategy fallback. -/
theorem extractJson_single_object (pre t post : String)
    (f : List (String × Json))
    (hpre : braceFree pre.data) (hpost : braceFree post.data)
    (hhead : t.data.head? = some '\x7b')
    (hlast : t.data.getLast? = some '\x7d')
    (hparse : parseJsonL t.data = some (Json.obj f)) :
    extractJson (pre ++ t ++ post) = some f := by
  unfold extractJson
  have hd : (pre ++ t ++ post).data = pre.data ++ t.data ++ post.data := by
    simp [String.data_append]
  rw [hd]
  exact extractJsonL_ok pre.data t.data post.data f hpre hpost hhead hlast hparse

/-- C1 witness: a concrete prose-wrapped object — with deeply nested
arrays inside, exercising the parser's fuel bound — is extracted
exactly. -/
theorem extractJson_single_object_witness :
    extractJson ("Sure! Here is the JSON: " ++
        "\x7b\"a\":[[[[[0]]]]],\"b\":\"c\"\x7d" ++ " Enjoy.")
      = some [("a", Json.arr [Json.arr [Json.arr [Json.arr [Json.arr
          [Json.num "0"]]]]]), ("b", Json.str "c")] :=
  extractJson_single_object "Sure! Here is the JSON: "
    "\x7b\"a\":[[[[[0]]]]],\"b\":\"c\"\x7d"
    " Enjoy."
    [("a", Json.arr [Json.arr [Json.arr [Json.arr [Json.arr
      [Json.num "0"]]]]]), ("b", Json.str "c")]
    (by unfold braceFree; decide) (by unfold braceFree; decide)
    (by rfl) (by rfl) (by rfl)

/-- C7: extraction never throws (it is a total function into `Option`),
every successful extraction comes from one of the three candidates parsing
as a JSON object, and a candidate whose top-level parse is an array, a
primitive or null is always rejected by the acceptance check. -/
theorem extractJson_objects_only (raw : String) :
    (∀ f, extractJson raw = some f →
      ∃ cs, cs ∈ extractAttempts raw.data ∧ parseJsonL cs = some (Json.obj f)) ∧
    (∀ cs v, parseJsonL cs = some v →
      (∀ fs, v ≠ Json.obj fs) → acceptCandidate cs = none) := by
  constructor
  · intro f h
    unfold extractJson extractJsonL at h
    obtain ⟨c, hc, hacc⟩ := firstAccepted_mem _ _ _ h
    exact ⟨c, hc, acceptCandidate_some _ _ hacc⟩
  · intro cs v hp hne
    unfold acceptCandidate
    rw [hp]
    cases v with
    | obj fs => exact absurd rfl (hne fs)
    | null => rfl
    | bool b => rfl
    | num r => rfl
    | str s => rfl
    | arr xs => rfl

/-- C8: a text with no ordered open-brace/close-brace pair yields no
extraction result — all three candidate strategies fail — and the vision
wrapper then fails with the original text embedded in its error message. -/
theorem extractJson_no_brace_pair (raw : String)
    (h : ∀ i < raw.data.length, ∀ j < raw.data.length,
      ¬(i < j ∧ raw.data.get? i = some '\x7b' ∧
        raw.data.get? j = some '\x7d')) :
    extractJson raw = none ∧
    fetchClaudeAnalysisCore (VisionOutcome.ok raw) =
      Except.error ("Could not extract JSON from Claude response: " ++ raw) := by
  have hfull : ∀ i j, i < j → raw.data.get? i = some '\x7b' →
      raw.data.get? j = some '\x7d' → False := by
    intro i j hij hi hj
    obtain ⟨hi2, -⟩ := List.get?_eq_some.mp hi
    obtain ⟨hj2, -⟩ := List.get?_eq_some.mp hj
    exact h i hi2 j hj2 ⟨hij, hi, hj⟩
  have hnotlt : ∀ i j, firstIdx '\x7b' raw.data = some i →
      lastIdx '\x7d' raw.data = some j → ¬ i < j := by
    intro i j hfi hli hij
    exact hfull i j hij (firstIdx_some _ _ _ hfi) (lastIdx_some _ _ _ hli)
  have hspan : braceSpan raw.data = none := by
    unfold braceSpan
    rcases hfi : firstIdx '\x7b' raw.data with _ | i
    · rfl
    rcases hli : lastIdx '\x7d' raw.data with _ | j
    · rfl
    dsimp only
    rw [if_neg (hnotlt i j hfi hli)]
  have hregex : regexOuterBlock raw.data = none := by
    unfold regexOuterBlock
    rcases hfi : firstIdx '\x7b' raw.data with _ | i
    · rfl
    rcases hli : lastIdx '\x7d' raw.data with _ | j
    · rfl
    dsimp only
    rw [if_neg (hnotlt i j hfi hli)]
  have hattempts : extractAttempts raw.data =
      [trimWs (stripTrailingFence (stripLeadingFence raw.data))] := by
    unfold extractAttempts
    rw [hspan, hregex]
    rfl
  have hacc : acceptCandidate
      (trimWs (stripTrailingFence (stripLeadingFence raw.data))) = none := by
    rcases ha : acceptCandidate
        (trimWs (stripTrailingFence (stripLeadingFence raw.data))) with _ | f
    · rfl
    exfalso
    have hp := acceptCandidate_some _ _ ha
    obtain ⟨i, j, hij, hi, hj⟩ := jsonParse_obj_pair _ _ hp
    obtain ⟨X, Y, hXY, -, -⟩ := fenceStripped_decomp raw.data
    obtain ⟨hilen, -⟩ := List.get?_eq_some.mp hi
    obtain ⟨hjlen, -⟩ := List.get?_eq_some.mp hj
    have h1 : raw.data.get? (X.length + i) = some '\x7b' := by
      rw [hXY, List.append_assoc, get_append_right, List.get?_append hilen]
      exact hi
    have h2 : raw.data.get? (X.length + j) = some '\x7d' := by
      rw [hXY, List.append_assoc, get_append_right, List.get?_append hjlen]
      exact hj
    exact hfull (X.length + i) (X.length + j) (by omega) h1 h2
  have hext : extractJson raw = none := by
    unfold extractJson extractJsonL
    rw [hattempts]
    unfold firstAccepted
    rw [hacc]
    dsimp only
    rw [firstAccepted]
  refine ⟨hext, ?_⟩
  unfold fetchClaudeAnalysisCore
  dsimp only
  rw [hext]

/-- C8 witness: a concrete brace-free text is rejected with its own text
in the error message. -/
theorem extractJson_no_brace_pair_witness :
    extractJson "no json here" = none ∧
    fetchClaudeAnalysisCore (VisionOutcome.ok "no json here") =
      Except.error ("Could not extract JSON from Claude response: " ++
        "no json here") :=
  extractJson_no_brace_pair "no json here" (by decide)

/-- C2: the handler's failure dispatch — a missing/empty mandatory
Anthropic key gives 500 with no external call made; an unparseable body
gives 400; a missing image gives 400 with the exact message; a reply
Claude sent but extraction rejects makes the vision step fail with the
prefixed diagnostic message, and at the boundary an error message is
dispatched on that prefix: prefixed messages get the 502 body with the
generic text plus the raw field, all others the 502
`API request failed: <message>` body. -/
theorem scanHandler_error_dispatch (env : Env) (body : Option Json)
    (o : ScanOracle) :
    (envTruthy env.anthropicKey = false →
      scanHandler env body o =
        (ScanResult.response 500
          (errBody "ANTHROPIC_API_KEY environment variable is not set."),
          [])) ∧
    (envTruthy env.anthropicKey = true → body = none →
      scanHandler env body o =
        (ScanResult.response 400 (errBody "Invalid JSON body."), [])) ∧
    (∀ b, envTruthy env.anthropicKey = true → body = some b →
      isNullJson b = false → imageOk (jsGet b "image") = false →
      scanHandler env body o =
        (ScanResult.response 400
          (errBody "Missing base64 image in request body."), [])) ∧
    (∀ raw, o.vision = VisionOutcome.ok raw → extractJson raw = none →
      fetchClaudeAnalysisCore o.vision =
        Except.error ("Could not extract JSON from Claude response: " ++ raw) ∧
      strStarts ("Could not extract JSON from Claude response: " ++ raw)
        "Could not extract JSON" = true) ∧
    (∀ b msg, envTruthy env.anthropicKey = true → body = some b →
      isNullJson b = false → imageOk (jsGet b "image") = true →
      fetchClaudeAnalysisCore o.vision = Except.error msg →
      (scanHandler env body o).1 =
        if strStarts msg "Could not extract JSON" then
          ScanResult.response 502
            (Json.obj [("error",
                Json.str "Claude returned an unexpected response format."),
              ("raw", Json.str msg)])
        else
          ScanResult.response 502
            (errBody ("API request failed: " ++ msg))) := by
  refine ⟨?_, ?_, ?_, ?_, ?_⟩
  · intro h
    simp [scanHandler, h]
  · intro h1 h2
    subst h2
    simp [scanHandler, h1]
  · intro b h1 h2 h3 h4
    subst h2
    simp [scanHandler, h1, h3, h4]
  · intro raw hvis hext
    constructor
    · rw [hvis]
      unfold fetchClaudeAnalysisCore
      dsimp only
      rw [hext]
    · have h1 : ("Could not extract JSON".data) <+:
          ("Could not extract JSON from Claude response: ".data) := by decide
      have h2 := h1.trans
        (List.prefix_append "Could not extract JSON from Claude response: ".data
          raw.data)
      unfold strStarts
      rw [String.data_append]
      exact List.isPrefixOf_iff_prefix.mpr h2
  · intro b msg h1 h2 h3 h4 h5
    subst h2
    by_cases hs : strStarts msg "Could not extract JSON" = true
    · simp [scanHandler, h1, h3, h4, h5, hs]
    · simp only [Bool.not_eq_true] at hs
      simp [scanHandler, h1, h3, h4, h5, hs]

/-- C2 witness: the dispatch at concrete inputs — a prefixed extraction
failure produces the raw-carrying 502 body. -/
theorem scanHandler_error_dispatch_witness :
    (scanHandler ⟨some "k", none, none⟩ (some (Json.obj [("image",
        Json.str "x")]))
      ⟨VisionOutcome.fail "Could not extract JSON from Claude response: hi",
        ⟨UploadOutcome.fail "m", SearchOutcome.timeout, true⟩⟩).1 =
      if strStarts "Could not extract JSON from Claude response: hi"
          "Could not extract JSON" then
        ScanResult.response 502
          (Json.obj [("error",
              Json.str "Claude returned an unexpected response format."),
            ("raw",
              Json.str "Could not extract JSON from Claude response: hi")])
      else
        ScanResult.response 502
          (errBody ("API request failed: " ++
            "Could not extract JSON from Claude response: hi")) :=
  (scanHandler_error_dispatch ⟨some "k", none, none⟩
    (some (Json.obj [("image", Json.str "x")]))
    ⟨VisionOutcome.fail "Could not extract JSON from Claude response: hi",
      ⟨UploadOutcome.fail "m", SearchOutcome.timeout, true⟩⟩).2.2.2.2
    (Json.obj [("image", Json.str "x")])
    "Could not extract JSON from Claude response: hi"
    (by rfl) (by rfl) (by rfl) (by rfl) (by rfl)

/-- C9: an `image` field that is present and of string type but equal to
the empty string is rejected with the 400 missing-image response, because
the handler's check uses JS falsiness (the empty string is falsy) rather
than a pure presence-and-type test. -/
theorem scanHandler_empty_string_image (env : Env) (b : Json) (o : ScanOracle)
    (henv : envTruthy env.anthropicKey = true)
    (hnull : isNullJson b = false)
    (himg : jsGet b "image" = some (Json.str "")) :
    scanHandler env (some b) o =
      (ScanResult.response 400
        (errBody "Missing base64 image in request body."), []) := by
  have h4 : imageOk (jsGet b "image") = false := by
    rw [himg]
    rfl
  simp [scanHandler, henv, hnull, h4]

/-- C9 witness: a concrete request carrying `image: ""` gets the 400. -/
theorem scanHandler_empty_string_image_witness :
    scanHandler ⟨some "k", none, none⟩
      (some (Json.obj [("image", Json.str "")]))
      ⟨VisionOutcome.ok "",
        ⟨UploadOutcome.fail "m", SearchOutcome.timeout, true⟩⟩ =
      (ScanResult.response 400
        (errBody "Missing base64 image in request body."), []) :=
  scanHandler_empty_string_image ⟨some "k", none, none⟩
    (Json.obj [("image", Json.str "")])
    ⟨VisionOutcome.ok "",
      ⟨UploadOutcome.fail "m", SearchOutcome.timeout, true⟩⟩
    (by rfl) (by rfl) (by rfl)

/-- C3: any failure in the enrichment chain — upload failure, search
failure, search timeout, or a malformed provider body — is absorbed at
the chain boundary: the scan still succeeds with a 200 response carrying
the vision analysis, and its `webResults` is exactly the empty list. -/
theorem scanHandler_enrich_failure (env : Env) (b : Json) (o : ScanOracle)
    (fields : List (String × Json))
    (henv : envTruthy env.anthropicKey = true)
    (hnull : isNullJson b = false)
    (himg : imageOk (jsGet b "image") = true)
    (hok : fetchClaudeAnalysisCore o.vision = Except.ok fields)
    (hfail : (∃ m, o.enrich.upload = UploadOutcome.fail m) ∨
      (∃ m, o.enrich.search = SearchOutcome.fail m) ∨
      o.enrich.search = SearchOutcome.timeout ∨
      (∃ data, o.enrich.search = SearchOutcome.ok data ∧
        fetchLensCore data = none)) :
    (scanHandler env (some b) o).1 =
      ScanResult.response 200
        (Json.obj (setKey fields "webResults" (Json.arr []))) := by
  have hws : (enrichChain (envTruthy env.serpApiKey && envTruthy env.blobToken)
      o.enrich).1 = [] := by
    unfold enrichChain
    by_cases hg : (envTruthy env.serpApiKey && envTruthy env.blobToken) = true
    · rw [if_pos hg]
      rcases hu : o.enrich.upload with url | m0
      · dsimp only
        rcases hfail with ⟨m, hm⟩ | ⟨m, hm⟩ | hm | ⟨d, hd, hl⟩
        · rw [hu] at hm
          exact UploadOutcome.noConfusion hm
        · rw [hm]
        · rw [hm]
        · rw [hd]
          dsimp only
          rw [hl]
      · rfl
    · rw [if_neg hg]
  simp [scanHandler, henv, hnull, himg, hok, hws]

/-- C3 witness: a concrete timed-out search still gives 200 with empty
webResults. -/
theorem scanHandler_enrich_failure_witness :
    (scanHandler ⟨some "k", some "s", some "t"⟩
      (some (Json.obj [("image", Json.str "x")]))
      ⟨VisionOutcome.ok "\x7b\"a\":\"b\"\x7d",
        ⟨UploadOutcome.ok "u", SearchOutcome.timeout, true⟩⟩).1 =
      ScanResult.response 200
        (Json.obj (setKey [("a", Json.str "b")] "webResults"
          (Json.arr []))) :=
  scanHandler_enrich_failure ⟨some "k", some "s", some "t"⟩
    (Json.obj [("image", Json.str "x")])
    ⟨VisionOutcome.ok "\x7b\"a\":\"b\"\x7d",
      ⟨UploadOutcome.ok "u", SearchOutcome.timeout, true⟩⟩
    [("a", Json.str "b")]
    (by rfl) (by rfl) (by rfl) (by rfl) (Or.inr (Or.inr (Or.inl rfl)))

/-- C4: once the upload succeeds, exactly one deleteBlob call for the
uploaded URL is made on every search exit path (success, failure and
timeout alike), and the discard call's own outcome affects neither the
enrichment chain nor the whole scan. -/
theorem enrichChain_delete_once (o : EnrichOracle) (url : String)
    (hup : o.upload = UploadOutcome.ok url) :
    ((enrichChain true o).2.count (Event.deleteCall url) = 1) ∧
    (∀ d, enrichChain true ⟨o.upload, o.search, d⟩ = enrichChain true o) ∧
    (∀ env body vis d,
      scanHandler env body ⟨vis, ⟨o.upload, o.search, d⟩⟩ =
        scanHandler env body ⟨vis, o⟩) := by
  obtain ⟨u, s, dk⟩ := o
  dsimp only at hup
  subst hup
  refine ⟨?_, fun d => rfl, fun env body vis d => rfl⟩
  unfold enrichChain
  dsimp only
  cases s with
  | ok data =>
    dsimp only
    rcases hl : fetchLensCore data with _ | ws
    · simp [List.count_cons]
    · simp [List.count_cons]
  | fail m => simp [List.count_cons]
  | timeout => simp [List.count_cons]

/-- C4 witness: a concrete successful upload with a timed-out search
yields exactly one delete call, independently of the discard outcome. -/
theorem enrichChain_delete_once_witness :
    ((enrichChain true
        ⟨UploadOutcome.ok "u", SearchOutcome.timeout, true⟩).2.count
      (Event.deleteCall "u") = 1) ∧
    (∀ d, enrichChain true
        ⟨(⟨UploadOutcome.ok "u", SearchOutcome.timeout, true⟩ :
            EnrichOracle).upload,
          (⟨UploadOutcome.ok "u", SearchOutcome.timeout, true⟩ :
            EnrichOracle).search, d⟩ =
      enrichChain true ⟨UploadOutcome.ok "u", SearchOutcome.timeout, true⟩) ∧
    (∀ env body vis d,
      scanHandler env body ⟨vis,
          ⟨(⟨UploadOutcome.ok "u", SearchOutcome.timeout, true⟩ :
              EnrichOracle).upload,
            (⟨UploadOutcome.ok "u", SearchOutcome.timeout, true⟩ :
              EnrichOracle).search, d⟩⟩ =
        scanHandler env body
          ⟨vis, ⟨UploadOutcome.ok "u", SearchOutcome.timeout, true⟩⟩) :=
  enrichChain_delete_once
    ⟨UploadOutcome.ok "u", SearchOutcome.timeout, true⟩ "u" (by rfl)

/-- C5: when the search-provider credential or the storage credential is
missing or empty, the response's webResults is exactly the empty list and
neither the storage provider nor the search provider is called — the only
external call of the scan is the vision call. -/
theorem scanHandler_no_credentials (env : Env) (b : Json) (o : ScanOracle)
    (fields : List (String × Json))
    (henv : envTruthy env.anthropicKey = true)
    (hnull : isNullJson b = false)
    (himg : imageOk (jsGet b "image") = true)
    (hok : fetchClaudeAnalysisCore o.vision = Except.ok fields)
    (hcred : envTruthy env.serpApiKey = false ∨
      envTruthy env.blobToken = false) :
    scanHandler env (some b) o =
      (ScanResult.response 200
        (Json.obj (setKey fields "webResults" (Json.arr []))),
        [Event.visionCall]) := by
  have hg : (envTruthy env.serpApiKey && envTruthy env.blobToken) = false := by
    rcases hcred with h | h <;> simp [h]
  simp [scanHandler, henv, hnull, himg, hok, hg, enrichChain]

/-- C5 witness: with no storage token configured, a concrete scan makes
only the vision call and returns empty webResults. -/
theorem scanHandler_no_credentials_witness :
    scanHandler ⟨some "k", some "s", none⟩
      (some (Json.obj [("image", Json.str "x")]))
      ⟨VisionOutcome.ok "\x7b\"a\":\"b\"\x7d",
        ⟨UploadOutcome.ok "u", SearchOutcome.ok Json.null, true⟩⟩ =
      (ScanResult.response 200
        (Json.obj (setKey [("a", Json.str "b")] "webResults"
          (Json.arr []))),
        [Event.visionCall]) :=
  scanHandler_no_credentials ⟨some "k", some "s", none⟩
    (Json.obj [("image", Json.str "x")])
    ⟨VisionOutcome.ok "\x7b\"a\":\"b\"\x7d",
      ⟨UploadOutcome.ok "u", SearchOutcome.ok Json.null, true⟩⟩
    [("a", Json.str "b")]
    (by rfl) (by rfl) (by rfl) (by rfl) (Or.inr rfl)

theorem mapWebResults_spec (l : List Json) (ws : List WebResult)
    (h : mapWebResults l = some ws) :
    ws.length = l.length ∧ ∀ i, ws.get? i = (l.get? i).bind toWebResult := by
  induction l generalizing ws with
  | nil =>
    rw [mapWebResults] at h
    injection h with h1
    subst h1
    exact ⟨rfl, fun i => rfl⟩
  | cons m rest ih =>
    rw [mapWebResults] at h
    obtain ⟨w, hw, h⟩ := Option.bind_eq_some.mp h
    obtain ⟨ws0, hws0, h⟩ := Option.map_eq_some'.mp h
    subst h
    obtain ⟨hlen, hget⟩ := ih ws0 hws0
    refine ⟨by simp [hlen], ?_⟩
    intro i
    cases i with
    | zero =>
      rw [show ((m :: rest).get? 0) = some m from rfl]
      rw [show ((w :: ws0).get? 0) = some w from rfl]
      rw [Option.some_bind, hw]
    | succ j => simpa using hget j

theorem mapWebResults_total (l : List Json)
    (h : ∀ m2 ∈ l, isNullJson m2 = false) :
    ∃ ws, mapWebResults l = some ws := by
  induction l with
  | nil => exact ⟨[], rfl⟩
  | cons m rest ih =>
    obtain ⟨ws, hws⟩ := ih (fun d hd => h d (List.mem_cons_of_mem m hd))
    have hm := h m (List.mem_cons_self m rest)
    obtain ⟨w, hw⟩ : ∃ w, toWebResult m = some w := by
      cases m with
      | null => exact absurd hm (by simp [isNullJson])
      | bool b => exact ⟨_, rfl⟩
      | num r => exact ⟨_, rfl⟩
      | str t => exact ⟨_, rfl⟩
      | arr a => exact ⟨_, rfl⟩
      | obj fs => exact ⟨_, rfl⟩
    refine ⟨w :: ws, ?_⟩
    rw [mapWebResults, hw, Option.some_bind, hws]
    rfl

/-- C6 (counterexample): a provider response whose `visual_matches` holds
five `null` entries has N = 5 matches, yet zero WebMatch entries are
produced — `m.title` on a null element throws a TypeError, aborting the
whole mapping, and the chain degrades to the empty list — refuting the
claim that the first min(N, 5) matches are always produced with
defaults. -/
theorem fetchLens_null_match_cex :
    visualMatches (Json.obj [("visual_matches",
      Json.arr [Json.null, Json.null, Json.null, Json.null, Json.null])]) =
      some [Json.null, Json.null, Json.null, Json.null, Json.null] ∧
    fetchLensCore (Json.obj [("visual_matches",
      Json.arr [Json.null, Json.null, Json.null, Json.null, Json.null])]) =
      none ∧
    enrichChain true ⟨UploadOutcome.ok "u",
      SearchOutcome.ok (Json.obj [("visual_matches",
        Json.arr [Json.null, Json.null, Json.null, Json.null, Json.null])]),
      true⟩ =
      ([], [Event.uploadCall, Event.searchCall "u", Event.deleteCall "u"]) :=
  ⟨rfl, rfl, rfl⟩

/-- C6 (amended): on a response whose relevant matches are non-null the
WebResult list is the first min(N, 5) provider matches in the provider's
original order — exactly 5 when N ≥ 5 — with per-field defaults: absent
title becomes "Unknown", an unresolvable price becomes null, absent link
and source become "", absent thumbnail becomes null; an absent or null
visual_matches list yields the empty result list; but a null element
among the first min(N, 5) matches makes the whole mapping throw (see the
counterexample), so no list is produced at all. -/
theorem fetchLens_mapping (data : Json) (xs : List Json) (m : Json) :
    (jsGet data "visual_matches" = some (Json.arr xs) →
      fetchLensCore data = lensMapMatches xs) ∧
    (∀ ws, lensMapMatches xs = some ws →
      ws.length = min xs.length 5 ∧
      ∀ i, i < 5 → ws.get? i = (xs.get? i).bind toWebResult) ∧
    ((∀ m2 ∈ xs.take 5, isNullJson m2 = false) →
      ∃ ws, lensMapMatches xs = some ws) ∧
    (∀ w, toWebResult m = some w →
      (jsGet m "title" = none → w.title = Json.str "Unknown") ∧
      (priceValue m = none → w.price = Json.null) ∧
      (jsGet m "link" = none → w.link = Json.str "") ∧
      (jsGet m "source" = none → w.source = Json.str "") ∧
      (jsGet m "thumbnail" = none → w.thumbnail = Json.null)) ∧
    toWebResult Json.null = none ∧
    (jsGet data "visual_matches" = none → fetchLensCore data = some []) ∧
    (jsGet data "visual_matches" = some Json.null →
      fetchLensCore data = some []) := by
  refine ⟨?_, ?_, ?_, ?_, rfl, ?_, ?_⟩
  · intro h
    unfold fetchLensCore visualMatches
    rw [h]
  · intro ws hws
    obtain ⟨hlen, hget⟩ := mapWebResults_spec _ _ hws
    constructor
    · rw [hlen]
      unfold lensMapMatches at hws
      rw [List.length_take]
      omega
    · intro i hi
      rw [hget i]
      rw [List.get?_take hi]
  · intro h
    exact mapWebResults_total _ h
  · intro w hw
    cases m with
    | null => exact Option.noConfusion hw
    | bool b =>
      injection hw with h1
      subst h1
      refine ⟨?_, ?_, ?_, ?_, ?_⟩ <;> intro hn <;> dsimp only <;> rw [hn] <;>
        rfl
    | num r =>
      injection hw with h1
      subst h1
      refine ⟨?_, ?_, ?_, ?_, ?_⟩ <;> intro hn <;> dsimp only <;> rw [hn] <;>
        rfl
    | str t =>
      injection hw with h1
      subst h1
      refine ⟨?_, ?_, ?_, ?_, ?_⟩ <;> intro hn <;> dsimp only <;> rw [hn] <;>
        rfl
    | arr a =>
      injection hw with h1
      subst h1
      refine ⟨?_, ?_, ?_, ?_, ?_⟩ <;> intro hn <;> dsimp only <;> rw [hn] <;>
        rfl
    | obj fs =>
      injection hw with h1
      subst h1
      refine ⟨?_, ?_, ?_, ?_, ?_⟩ <;> intro hn <;> dsimp only <;> rw [hn] <;>
        rfl
  · intro h
    unfold fetchLensCore visualMatches
    rw [h]
    rfl
  · intro h
    unfold fetchLensCore visualMatches
    rw [h]
    rfl

/-- C10: every success response body carries the enrichment chain's own
webResults — a `webResults` key inside the model's extracted object is
overridden by the spread, never forwarded — while every other extracted
key passes through to the response unchanged. -/
theorem scanHandler_webResults_override (env : Env) (b : Json)
    (o : ScanOracle) (fields : List (String × Json))
    (henv : envTruthy env.anthropicKey = true)
    (hnull : isNullJson b = false)
    (himg : imageOk (jsGet b "image") = true)
    (hok : fetchClaudeAnalysisCore o.vision = Except.ok fields) :
    ∃ rbody, (scanHandler env (some b) o).1 =
        ScanResult.response 200 (Json.obj rbody) ∧
      getKey rbody "webResults" =
        some (Json.arr ((enrichChain
          (envTruthy env.serpApiKey && envTruthy env.blobToken)
          o.enrich).1.map webResultToJson)) ∧
      ∀ k, k ≠ "webResults" → getKey rbody k = getKey fields k := by
  refine ⟨setKey fields "webResults"
    (Json.arr ((enrichChain
      (envTruthy env.serpApiKey && envTruthy env.blobToken)
      o.enrich).1.map webResultToJson)), ?_, ?_, ?_⟩
  · simp [scanHandler, henv, hnull, himg, hok]
  · exact getKey_setKey_self fields "webResults" _
  · intro k hk
    exact getKey_setKey_ne fields "webResults" k _ hk

/-- C10 witness: a model reply whose object itself carries a webResults
key has it overridden in the concrete response. -/
theorem scanHandler_webResults_override_witness :
    ∃ rbody, (scanHandler ⟨some "k", none, none⟩
        (some (Json.obj [("image", Json.str "x")]))
        ⟨VisionOutcome.ok "\x7b\"webResults\":false,\"a\":1\x7d",
          ⟨UploadOutcome.fail "m", SearchOutcome.timeout, true⟩⟩).1 =
        ScanResult.response 200 (Json.obj rbody) ∧
      getKey rbody "webResults" =
        some (Json.arr ((enrichChain
          (envTruthy (⟨some "k", none, none⟩ : Env).serpApiKey &&
            envTruthy (⟨some "k", none, none⟩ : Env).blobToken)
          (⟨UploadOutcome.fail "m", SearchOutcome.timeout, true⟩ :
            EnrichOracle)).1.map webResultToJson)) ∧
      ∀ k, k ≠ "webResults" →
        getKey rbody k =
          getKey [("webResults", Json.bool false), ("a", Json.num "1")] k :=
  scanHandler_webResults_override ⟨some "k", none, none⟩
    (Json.obj [("image", Json.str "x")])
    ⟨VisionOutcome.ok "\x7b\"webResults\":false,\"a\":1\x7d",
      ⟨UploadOutcome.fail "m", SearchOutcome.timeout, true⟩⟩
    [("webResults", Json.bool false), ("a", Json.num "1")]
    (by rfl) (by rfl) (by rfl) (by rfl)
